import Mathlib

set_option linter.unusedSectionVars false

/-!
Verification of the `HashMap` container from `src/hash_map.h`.

The C++ container keeps its entries in a `std::forward_list<Element>`
(`elements_`) and a bucket table `std::vector<std::forward_list<iterator>>`
(`table_`) whose buckets store, for each key hashing there, an iterator to the
*predecessor* of that key's entry in `elements_` (`before_begin()` for the
first entry).

Shallow embedding used here:
* every physically created list node gets a fresh id (`nextId` counter), so an
  `elements_` iterator pointing at a node is modelled by that node's id;
  `before_begin()` is modelled by `none`.  `forward_list` iterators are stable
  under insertion/removal elsewhere, and so are ids.
* `Marker` (= `Option Nat`) is the model of an iterator stored in a bucket.
* dereferencing `next(it)` of a position is `succAt` (scan the entry list for
  the node with that id and yield its successor); it returns `none` where the
  C++ program would dereference `end()` or a dangling iterator (undefined
  behaviour, unreachable from states the container actually produces).
* the `find_prev_in_bucket` loop walks a bucket and stops at the first marker
  whose successor holds the sought key; it is modelled by `findSlot`, which
  returns the index of that marker slot in the bucket (the C++ function
  returns the iterator *before* the slot precisely so that the slot itself can
  be read, overwritten, or `erase_after`-removed; index-based `List.getD`,
  `List.set` and `List.eraseIdx` model those three uses).
* `size_t` values only ever reach the table through `% table_.size()`, so
  hash values are modelled as plain `Nat`.
-/

/-- One node of `elements_`: a stable id (modelling the identity of the
`forward_list` node) together with the stored key/value pair. -/
structure Entry (K V : Type) where
  id : Nat
  key : K
  val : V
deriving DecidableEq, Repr

/-- An `elements_` iterator as stored in a bucket: `none` is
`elements_.before_begin()`, `some i` points at the node with id `i`. -/
abbrev Marker := Option Nat

/-- Successor scan: the node following the node with id `i`, i.e. the
dereference of `next(it)` for an iterator `it` at id `i`. -/
def sucAfter {K V : Type} : List (Entry K V) → Nat → Option (Entry K V)
  | [], _ => none
  | e :: rest, i => if e.id = i then rest.head? else sucAfter rest i

/-- Dereference of `next(p)` for a stored position `p`:
`next(before_begin())` is the first node. -/
def succAt {K V : Type} (es : List (Entry K V)) : Marker → Option (Entry K V)
  | none => es.head?
  | some i => sucAfter es i

/-- The comparison `next(*next(it))->first == key` from `find_prev_in_bucket`:
does the successor of stored position `mk` hold key `k`?  (`false` covers the
dangling-iterator dereference that well-formed states never perform.) -/
def markerMatches {K V : Type} [DecidableEq K] (es : List (Entry K V)) (k : K)
    (mk : Marker) : Bool :=
  match succAt es mk with
  | some e => decide (e.key = k)
  | none => false

/-- Index of the first slot satisfying `p`, modelling the scanning loop of
`find_prev_in_bucket` (which stops just before the first marker whose
successor carries the key). -/
def findSlot {α : Type} (p : α → Bool) : List α → Option Nat
  | [] => none
  | x :: t => if p x then some 0 else (findSlot p t).map (· + 1)

/-- `elements_.erase_after` at the position with id `i`. -/
def removeAfterId {K V : Type} : List (Entry K V) → Nat → List (Entry K V)
  | [], _ => []
  | e :: rest, i => if e.id = i then e :: rest.tail else e :: removeAfterId rest i

/-- `elements_.erase_after(p)` for a stored position `p`. -/
def removeAfter {K V : Type} (es : List (Entry K V)) : Marker → List (Entry K V)
  | none => es.tail
  | some i => removeAfterId es i

/-- The container state: hash function object, entry sequence, bucket table,
stored size, plus the id supply for freshly created nodes. -/
structure HashMap (K V : Type) where
  hasher : K → Nat
  elements : List (Entry K V)
  table : List (List Marker)
  size : Nat
  nextId : Nat

variable {K V : Type} [DecidableEq K] [DecidableEq V] [Inhabited V]

/-- `HashMap(Hash h)`: size 0, `table_.resize(1)`. -/
def HashMap.mkEmpty (h : K → Nat) : HashMap K V :=
  { hasher := h, elements := [], table := [[]], size := 0, nextId := 0 }

/-- `find(key)`: scan bucket `hash(key) % table_.size()`; if a marker slot is
found, return the entry after the stored position, else "absent" (`end()`). -/
def HashMap.findEntry (m : HashMap K V) (k : K) : Option (Entry K V) :=
  let b := m.hasher k % m.table.length
  let bkt := m.table.getD b []
  match findSlot (markerMatches m.elements k) bkt with
  | none => none
  | some i => succAt m.elements (bkt.getD i none)

/-- `at(key)`: the same scan as `find`; `none` models throwing
`std::out_of_range`. -/
def HashMap.atKey (m : HashMap K V) (k : K) : Option V :=
  (m.findEntry k).map Entry.val

/-- One step of `rehash`'s loop, for entry `e`: if the bucket index changed
under the doubled table size, push the marker of `e` onto the front of the new
bucket and `erase_after` it from the old one. -/
def moveMarker [DecidableEq K] (H : K → Nat) (es : List (Entry K V)) (prevSize : Nat)
    (tbl : List (List Marker)) (e : Entry K V) : List (List Marker) :=
  let h := H e.key
  let pb := h % prevSize
  let nb := h % tbl.length
  if pb = nb then tbl
  else
    let bkt := tbl.getD pb []
    match findSlot (markerMatches es e.key) bkt with
    | some i =>
        let mk := bkt.getD i none
        let tbl1 := tbl.set nb (mk :: tbl.getD nb [])
        tbl1.set pb ((tbl1.getD pb []).eraseIdx i)
    | none => tbl

/-- `rehash()`: double the table (`resize` appends empty buckets), then one
forward pass over `elements_` relocating each entry's marker whose bucket
index changed; entries themselves are never touched. -/
def HashMap.rehash (m : HashMap K V) : HashMap K V :=
  let prevSize := m.table.length
  let tbl0 := m.table ++ List.replicate prevSize []
  { m with table := m.elements.foldl (moveMarker m.hasher m.elements prevSize) tbl0 }

/-- `insert(p)` past the duplicate check: rewrite the old first entry's marker
(found via `find_prev_in_bucket` before anything changes) to the position of
the incoming node, `push_front` the node, `++size_`, `push_front` a
`before_begin()` marker into the new key's bucket, then rehash if the load
factor now exceeds 1.0 (`size_ > table_.size()`). -/
def HashMap.insertRaw (m : HashMap K V) (p : K × V) : HashMap K V :=
  let newE : Entry K V := ⟨m.nextId, p.1, p.2⟩
  let pushed : HashMap K V :=
    if 0 < m.size then
      match m.elements.head? with
      | some e0 =>
          let b0 := m.hasher e0.key % m.table.length
          let bkt0 := m.table.getD b0 []
          match findSlot (markerMatches m.elements e0.key) bkt0 with
          | some i =>
              { m with elements := newE :: m.elements, nextId := m.nextId + 1,
                       table := m.table.set b0 (bkt0.set i (some newE.id)) }
          | none =>
              { m with elements := newE :: m.elements, nextId := m.nextId + 1 }
      | none => { m with elements := newE :: m.elements, nextId := m.nextId + 1 }
    else { m with elements := newE :: m.elements, nextId := m.nextId + 1 }
  let grown := { pushed with size := pushed.size + 1 }
  let b := grown.hasher p.1 % grown.table.length
  let marked := { grown with table := grown.table.set b (none :: grown.table.getD b []) }
  if marked.table.length < marked.size then marked.rehash else marked

/-- `insert(p)`: no-op when `find(p.first) != end()`. -/
def HashMap.insert (m : HashMap K V) (p : K × V) : HashMap K V :=
  if (m.findEntry p.1).isSome then m else m.insertRaw p

/-- `erase(key)`: locate the key's marker slot; if absent, no-op.  Otherwise
(reading the target `jt = next(*next(it))`): if the target has a successor,
rewrite that successor's own marker to the target's predecessor; then
`erase_after` the target from `elements_` and the marker slot from its
bucket. -/
def HashMap.erase (m : HashMap K V) (k : K) : HashMap K V :=
  let b := m.hasher k % m.table.length
  let bkt := m.table.getD b []
  match findSlot (markerMatches m.elements k) bkt with
  | none => m
  | some i =>
      let mk := bkt.getD i none
      match succAt m.elements mk with
      | none => m
      | some tgt =>
          let tbl1 :=
            match succAt m.elements (some tgt.id) with
            | none => m.table
            | some ne =>
                let tb := m.hasher ne.key % m.table.length
                let nbkt := m.table.getD tb []
                match findSlot (markerMatches m.elements ne.key) nbkt with
                | some j => m.table.set tb (nbkt.set j mk)
                | none => m.table
          { m with elements := removeAfter m.elements mk,
                   table := tbl1.set b ((tbl1.getD b []).eraseIdx i),
                   size := m.size - 1 }

/-- `operator[](key)`: if the bucket scan succeeds return the entry's value
with no mutation; otherwise run `insert({key, ValueType()})` and return the
value of `elements_.begin()` (the freshly created front node). -/
def HashMap.indexAccess (m : HashMap K V) (k : K) : HashMap K V × V :=
  match m.findEntry k with
  | some e => (m, e.val)
  | none =>
      let m' := m.insert (k, default)
      (m', ((m'.elements.head?).map Entry.val).getD default)

/-- `clear()`: for every entry clear the whole bucket its key hashes to, then
clear `elements_` and reset `size_`; the table keeps its current length. -/
def HashMap.clear (m : HashMap K V) : HashMap K V :=
  let tbl := m.elements.foldl (fun t e => t.set (m.hasher e.key % m.table.length) []) m.table
  { m with elements := [], table := tbl, size := 0 }

/-- `hash_function()`. -/
def HashMap.hash_function (m : HashMap K V) : K → Nat :=
  m.hasher

/-- Body of `operator=` for distinct objects: clear the target, then insert
every entry of the source in iteration order. -/
def HashMap.copyAssign (target source : HashMap K V) : HashMap K V :=
  source.elements.foldl (fun acc e => acc.insert (e.key, e.val)) target.clear

/-- `operator=` including its `this == &other` self-assignment guard, which
returns the target untouched. -/
def HashMap.assignOp (aliased : Bool) (target source : HashMap K V) : HashMap K V :=
  if aliased then target else target.copyAssign source

/-- The key/value pairs in iteration order (`begin()` to `end()`). -/
def HashMap.toPairs (m : HashMap K V) : List (K × V) :=
  m.elements.map (fun e => (e.key, e.val))

/-- States producible through the public mutating interface, starting from a
freshly constructed map. -/
inductive Reachable : HashMap K V → Prop
  | empty (h : K → Nat) : Reachable (HashMap.mkEmpty h)
  | insert {m : HashMap K V} (p : K × V) : Reachable m → Reachable (m.insert p)
  | erase {m : HashMap K V} (k : K) : Reachable m → Reachable (m.erase k)
  | index {m : HashMap K V} (k : K) : Reachable m → Reachable (m.indexAccess k).1
  | clear {m : HashMap K V} : Reachable m → Reachable m.clear
  | rehash {m : HashMap K V} : Reachable m → Reachable m.rehash
  | assign {a b : HashMap K V} : Reachable a → Reachable b → Reachable (a.copyAssign b)

/-! ### Generic list helpers: slot search, index surgery, permutations -/

theorem findSlot_eq_none_iff {α : Type} (p : α → Bool) (l : List α) :
    findSlot p l = none ↔ ∀ x ∈ l, p x = false := by
  induction l with
  | nil => simp [findSlot]
  | cons x t ih =>
      by_cases hx : p x
      · simp [findSlot, hx]
      · simp only [findSlot, if_neg hx, List.mem_cons]
        constructor
        · intro h y hy
          rcases hy with rfl | hy
          · exact Bool.eq_false_iff.mpr hx
          · rcases h' : findSlot p t with _ | i
            · exact (ih.mp h') y hy
            · simp [h'] at h
        · intro h
          have : findSlot p t = none := ih.mpr (fun y hy => h y (Or.inr hy))
          simp [this]

theorem findSlot_isSome_of_mem {α : Type} {p : α → Bool} {l : List α} {x : α}
    (hx : x ∈ l) (hp : p x = true) : ∃ i, findSlot p l = some i := by
  rcases h : findSlot p l with _ | i
  · have := (findSlot_eq_none_iff p l).mp h x hx
    rw [hp] at this; cases this
  · exact ⟨i, rfl⟩

theorem findSlot_spec {α : Type} {p : α → Bool} {l : List α} {i : Nat} (d : α)
    (h : findSlot p l = some i) : i < l.length ∧ p (l.getD i d) = true := by
  induction l generalizing i with
  | nil => simp [findSlot] at h
  | cons x t ih =>
      by_cases hx : p x
      · simp [findSlot, hx] at h
        subst h
        simpa [List.getD] using hx
      · simp only [findSlot, if_neg hx] at h
        rcases h' : findSlot p t with _ | j
        · simp [h'] at h
        · simp [h'] at h
          subst h
          have := ih h'
          exact ⟨by simpa [Nat.succ_lt_succ_iff] using this.1, by simpa [List.getD] using this.2⟩

theorem list_getD_mem {α : Type} {l : List α} {i : Nat} (d : α) (h : i < l.length) :
    l.getD i d ∈ l := by
  induction l generalizing i with
  | nil => simp at h
  | cons x t ih =>
      cases i with
      | zero => simp [List.getD]
      | succ j =>
          have : j < t.length := by simpa [Nat.succ_lt_succ_iff] using h
          exact List.mem_cons_of_mem _ (ih this)

theorem list_perm_getD_cons_eraseIdx {α : Type} {l : List α} {i : Nat} (d : α)
    (h : i < l.length) : List.Perm l (l.getD i d :: l.eraseIdx i) := by
  induction l generalizing i with
  | nil => simp at h
  | cons x t ih =>
      cases i with
      | zero => simp [List.getD]
      | succ j =>
          have hj : j < t.length := by simpa [Nat.succ_lt_succ_iff] using h
          have h1 : List.Perm (x :: t) (x :: (t.getD j d :: t.eraseIdx j)) := (ih hj).cons x
          have h2 : List.Perm (x :: (t.getD j d :: t.eraseIdx j))
              (t.getD j d :: x :: t.eraseIdx j) := List.Perm.swap _ _ _
          have h3 := h1.trans h2
          simpa [List.getD] using h3

theorem list_set_perm_cons_eraseIdx {α : Type} {l : List α} {i : Nat} (v : α)
    (h : i < l.length) : List.Perm (l.set i v) (v :: l.eraseIdx i) := by
  induction l generalizing i with
  | nil => simp at h
  | cons x t ih =>
      cases i with
      | zero => simp
      | succ j =>
          have hj : j < t.length := by simpa [Nat.succ_lt_succ_iff] using h
          have h1 : List.Perm ((x :: t).set (j+1) v) (x :: (v :: t.eraseIdx j)) := by
            simpa using (ih hj).cons x
          have h2 : List.Perm (x :: (v :: t.eraseIdx j)) (v :: x :: t.eraseIdx j) :=
            List.Perm.swap _ _ _
          exact h1.trans h2

theorem list_getD_set_ne {α : Type} (l : List α) {i j : Nat} (v d : α) (h : i ≠ j) :
    (l.set j v).getD i d = l.getD i d := by
  induction l generalizing i j with
  | nil => simp
  | cons x t ih =>
      cases j with
      | zero =>
          cases i with
          | zero => exact absurd rfl h
          | succ i' => simp [List.getD]
      | succ j' =>
          cases i with
          | zero => simp [List.getD]
          | succ i' =>
              have : i' ≠ j' := fun hc => h (by rw [hc])
              simpa [List.getD] using ih this

theorem list_getD_set_self {α : Type} {l : List α} {j : Nat} (v d : α) (h : j < l.length) :
    (l.set j v).getD j d = v := by
  induction l generalizing j with
  | nil => simp at h
  | cons x t ih =>
      cases j with
      | zero => simp [List.getD]
      | succ j' =>
          have : j' < t.length := by simpa [Nat.succ_lt_succ_iff] using h
          simpa [List.getD] using ih this

theorem list_getD_of_length_le {α : Type} {l : List α} {i : Nat} (d : α)
    (h : l.length ≤ i) : l.getD i d = d := by
  induction l generalizing i with
  | nil => simp [List.getD]
  | cons x t ih =>
      cases i with
      | zero => simp at h
      | succ j =>
          have : t.length ≤ j := by simpa [Nat.succ_le_succ_iff] using h
          simpa [List.getD] using ih this

theorem list_getD_append_left {α : Type} {l r : List α} {i : Nat} (d : α)
    (h : i < l.length) : (l ++ r).getD i d = l.getD i d := by
  induction l generalizing i with
  | nil => simp at h
  | cons x t ih =>
      cases i with
      | zero => simp [List.getD]
      | succ j =>
          have : j < t.length := by simpa [Nat.succ_lt_succ_iff] using h
          simpa [List.getD] using ih this

/-! ### The predecessor-pair model

`pairsFrom p es` lists, for each entry of `es`, the stored position of its
predecessor (`p` for the first entry, then each entry's own id for its
successor).  `bml g b ps` collects the predecessor markers of those pairs
whose entry is assigned to bucket `b` by the bucket-assignment function `g`;
the table invariant says each bucket is a permutation of this model. -/

def pairsFrom {K V : Type} (p : Marker) : List (Entry K V) → List (Marker × Entry K V)
  | [] => []
  | e :: rest => (p, e) :: pairsFrom (some e.id) rest

def preds {K V : Type} (es : List (Entry K V)) : List (Marker × Entry K V) :=
  pairsFrom none es

/-- The position of the last node of `xs`, or `p` when `xs` is empty: the
predecessor position of whatever follows `xs`. -/
def lastPosFrom {K V : Type} (p : Marker) : List (Entry K V) → Marker
  | [] => p
  | a :: t => lastPosFrom (some a.id) t

def bml {K V : Type} (g : Entry K V → Nat) (b : Nat)
    (ps : List (Marker × Entry K V)) : List Marker :=
  (ps.filter (fun q => g q.2 == b)).map Prod.fst

theorem pairsFrom_snd {K V : Type} (p : Marker) (es : List (Entry K V)) :
    (pairsFrom p es).map Prod.snd = es := by
  induction es generalizing p with
  | nil => rfl
  | cons e rest ih => simp [pairsFrom, ih]

theorem lastPosFrom_cons {K V : Type} (p : Marker) (x : Entry K V) (t : List (Entry K V)) :
    lastPosFrom p (x :: t) = lastPosFrom (some x.id) t := rfl

theorem lastPosFrom_concat {K V : Type} (p : Marker) (u : List (Entry K V)) (a : Entry K V) :
    lastPosFrom p (u ++ [a]) = some a.id := by
  induction u generalizing p with
  | nil => rfl
  | cons x t ih => simpa [lastPosFrom] using ih (some x.id)

theorem pairsFrom_append {K V : Type} (p : Marker) (xs ys : List (Entry K V)) :
    pairsFrom p (xs ++ ys) = pairsFrom p xs ++ pairsFrom (lastPosFrom p xs) ys := by
  induction xs generalizing p with
  | nil => simp [pairsFrom, lastPosFrom]
  | cons x t ih => simp [pairsFrom, ih (some x.id), lastPosFrom_cons]

theorem pairsFrom_fst {K V : Type} (p : Marker) (l : List (Entry K V)) :
    (pairsFrom p l).map Prod.fst = (p :: l.map (fun e => some e.id)).dropLast := by
  induction l generalizing p with
  | nil => rfl
  | cons x t ih =>
      have step : (pairsFrom p (x :: t)).map Prod.fst
          = p :: (pairsFrom (some x.id) t).map Prod.fst := by
        simp [pairsFrom]
      rw [step, ih (some x.id)]
      cases t with
      | nil => rfl
      | cons y t' => rfl

theorem preds_fst_nodup {K V : Type} {es : List (Entry K V)}
    (hids : (es.map Entry.id).Nodup) : ((preds es).map Prod.fst).Nodup := by
  rw [preds, pairsFrom_fst]
  have h1 : ((none : Marker) :: es.map (fun e => some e.id)).Nodup := by
    rw [List.nodup_cons]
    constructor
    · simp
    · have : es.map (fun e => some e.id) = (es.map Entry.id).map some := by
        simp [List.map_map]
      rw [this]
      exact hids.map (fun a b h => Option.some.inj h)
  exact h1.sublist (List.dropLast_sublist _)

theorem sucAfter_append_not_mem {K V : Type} {u : List (Entry K V)} {i : Nat}
    (h : i ∉ u.map Entry.id) (r : List (Entry K V)) :
    sucAfter (u ++ r) i = sucAfter r i := by
  induction u with
  | nil => rfl
  | cons x t ih =>
      have hx : x.id ≠ i := by
        intro hc; exact h (by simp [hc])
      have ht : i ∉ t.map Entry.id := fun hc => h (by simp [hc])
      simp [sucAfter, hx, ih ht]

theorem sucAfter_middle {K V : Type} {u : List (Entry K V)} {a : Entry K V}
    (h : a.id ∉ u.map Entry.id) (r : List (Entry K V)) :
    sucAfter (u ++ a :: r) a.id = r.head? := by
  rw [sucAfter_append_not_mem h]
  simp [sucAfter]

theorem nodup_middle_not_mem_left {α : Type} {X Y : List α} {a : α}
    (h : (X ++ a :: Y).Nodup) : a ∉ X := by
  have h2 : (a :: (X ++ Y)).Nodup := List.nodup_middle.mp h
  have h3 := (List.nodup_cons.mp h2).1
  exact fun hc => h3 (List.mem_append_left _ hc)

theorem succAt_seg {K V : Type} {es u t : List (Entry K V)}
    (hids : (es.map Entry.id).Nodup) (h : es = u ++ t) :
    succAt es (lastPosFrom none u) = t.head? := by
  rcases List.eq_nil_or_concat u with rfl | ⟨u', a, rfl⟩
  · simp only [List.nil_append] at h
    subst h
    rfl
  · simp only [List.concat_eq_append] at h
    rw [List.concat_eq_append, lastPosFrom_concat]
    subst h
    have hmem : a.id ∉ u'.map Entry.id := by
      have : ((u'.map Entry.id) ++ a.id :: t.map Entry.id).Nodup := by
        simpa using hids
      exact nodup_middle_not_mem_left this
    show sucAfter (u' ++ [a] ++ t) a.id = t.head?
    rw [List.append_assoc, List.singleton_append]
    exact sucAfter_middle hmem t

theorem mem_pairsFrom_decomp {K V : Type} {t u0 : List (Entry K V)} {pk : Marker}
    {e : Entry K V} :
    ∀ (_ : (pk, e) ∈ pairsFrom (lastPosFrom none u0) t) (es : List (Entry K V))
      (_ : es = u0 ++ t), ∃ u w, es = u ++ e :: w ∧ pk = lastPosFrom none u := by
  induction t generalizing u0 with
  | nil => intro h; simp [pairsFrom] at h
  | cons x t' ih =>
      intro h es hes
      rw [pairsFrom] at h
      rcases List.mem_cons.mp h with h1 | h1
      · have hpk : pk = lastPosFrom none u0 := congrArg Prod.fst h1
        have hx : e = x := congrArg Prod.snd h1
        exact ⟨u0, t', by rw [hes, ← hx], hpk⟩
      · have hq : (some x.id : Marker) = lastPosFrom none (u0 ++ [x]) :=
          (lastPosFrom_concat none u0 x).symm
        rw [hq] at h1
        obtain ⟨u, w, h2, h3⟩ := ih h1 es (by rw [hes, List.append_assoc]; rfl)
        exact ⟨u, w, h2, h3⟩

theorem mem_preds_decomp {K V : Type} {es : List (Entry K V)} {pk : Marker}
    {e : Entry K V} (h : (pk, e) ∈ preds es) :
    ∃ u w, es = u ++ e :: w ∧ pk = lastPosFrom none u := by
  have h0 : (pk, e) ∈ pairsFrom (lastPosFrom none ([] : List (Entry K V))) es := h
  exact mem_pairsFrom_decomp h0 es rfl

theorem succAt_of_mem_preds {K V : Type} {es : List (Entry K V)} {pk : Marker}
    {e : Entry K V} (hids : (es.map Entry.id).Nodup) (h : (pk, e) ∈ preds es) :
    succAt es pk = some e := by
  obtain ⟨u, w, rfl, rfl⟩ := mem_preds_decomp h
  rw [succAt_seg hids rfl]
  rfl

theorem preds_mem_of_mem {K V : Type} {es : List (Entry K V)} {e : Entry K V}
    (h : e ∈ es) : ∃ pk, (pk, e) ∈ preds es := by
  have : e ∈ (preds es).map Prod.snd := by rw [preds, pairsFrom_snd]; exact h
  obtain ⟨q, hq, hq2⟩ := List.mem_map.mp this
  exact ⟨q.1, by rw [← hq2]; exact hq⟩

theorem removeAfterId_middle {K V : Type} {u : List (Entry K V)} {a : Entry K V}
    (h : a.id ∉ u.map Entry.id) (r : List (Entry K V)) :
    removeAfterId (u ++ a :: r) a.id = u ++ a :: r.tail := by
  induction u with
  | nil => simp [removeAfterId]
  | cons x t ih =>
      have hx : x.id ≠ a.id := by
        intro hc; exact h (by simp [← hc])
      have ht : a.id ∉ t.map Entry.id := fun hc => h (by simp [hc])
      simp [removeAfterId, hx, ih ht]

theorem removeAfter_seg {K V : Type} {es u w : List (Entry K V)} {e : Entry K V}
    (hids : (es.map Entry.id).Nodup) (h : es = u ++ e :: w) :
    removeAfter es (lastPosFrom none u) = u ++ w := by
  rcases List.eq_nil_or_concat u with rfl | ⟨u', a, rfl⟩
  · simp only [List.nil_append] at h
    subst h
    rfl
  · simp only [List.concat_eq_append] at h
    rw [List.concat_eq_append, lastPosFrom_concat]
    subst h
    have hmem : a.id ∉ u'.map Entry.id := by
      have hn : ((u'.map Entry.id) ++ a.id :: (e :: w).map Entry.id).Nodup := by
        simpa using hids
      exact nodup_middle_not_mem_left hn
    show removeAfterId (u' ++ [a] ++ e :: w) a.id = u' ++ [a] ++ w
    rw [List.append_assoc, List.singleton_append, removeAfterId_middle hmem]
    simp

theorem bml_append {K V : Type} (g : Entry K V → Nat) (b : Nat)
    (ps qs : List (Marker × Entry K V)) :
    bml g b (ps ++ qs) = bml g b ps ++ bml g b qs := by
  simp [bml]

theorem bml_cons {K V : Type} (g : Entry K V → Nat) (b : Nat)
    (q : Marker × Entry K V) (ps : List (Marker × Entry K V)) :
    bml g b (q :: ps) = if g q.2 = b then q.1 :: bml g b ps else bml g b ps := by
  by_cases h : g q.2 = b
  · simp [bml, List.filter_cons, h]
  · simp [bml, List.filter_cons, h]

theorem mem_bml {K V : Type} {g : Entry K V → Nat} {b : Nat}
    {ps : List (Marker × Entry K V)} {mk : Marker} :
    mk ∈ bml g b ps ↔ ∃ q ∈ ps, g q.2 = b ∧ q.1 = mk := by
  simp only [bml, List.mem_map, List.mem_filter]
  constructor
  · rintro ⟨q, ⟨hq, hb⟩, rfl⟩
    exact ⟨q, hq, by simpa using hb, rfl⟩
  · rintro ⟨q, hq, hb, rfl⟩
    exact ⟨q, ⟨hq, by simpa using hb⟩, rfl⟩

theorem bml_congr {K V : Type} {g g' : Entry K V → Nat} (b : Nat)
    {ps : List (Marker × Entry K V)} (h : ∀ q ∈ ps, g q.2 = g' q.2) :
    bml g b ps = bml g' b ps := by
  unfold bml
  rw [List.filter_congr (fun q hq => by rw [h q hq])]

theorem bml_eq_nil_of_ge {K V : Type} {g : Entry K V → Nat} {b L : Nat}
    {ps : List (Marker × Entry K V)} (h : ∀ q ∈ ps, g q.2 < L) (hb : L ≤ b) :
    bml g b ps = [] := by
  have : ps.filter (fun q => g q.2 == b) = [] := by
    rw [List.filter_eq_nil_iff]
    intro q hq
    simp only [beq_iff_eq]
    exact fun hc => absurd (hc ▸ h q hq) (by omega)
  simp [bml, this]

theorem bml_nodup {K V : Type} {g : Entry K V → Nat} {b : Nat}
    {es : List (Entry K V)} (hids : (es.map Entry.id).Nodup) :
    (bml g b (preds es)).Nodup := by
  have hsub : List.Sublist (bml g b (preds es)) ((preds es).map Prod.fst) :=
    ((preds es).filter_sublist).map Prod.fst
  exact (preds_fst_nodup hids).sublist hsub

theorem entry_key_inj {K V : Type} {es : List (Entry K V)} [DecidableEq K]
    (hkeys : (es.map Entry.key).Nodup) {e e' : Entry K V}
    (he : e ∈ es) (he' : e' ∈ es) (h : e.key = e'.key) : e = e' :=
  List.inj_on_of_nodup_map hkeys he he' h

theorem find?_key_of_mem {K V : Type} [DecidableEq K] {es : List (Entry K V)}
    (hkeys : (es.map Entry.key).Nodup) {e : Entry K V} {k : K}
    (he : e ∈ es) (hk : e.key = k) :
    es.find? (fun x => decide (x.key = k)) = some e := by
  induction es with
  | nil => cases he
  | cons x t ih =>
      have hkx : (x.key :: t.map Entry.key).Nodup := hkeys
      by_cases hx : x.key = k
      · have hxe : x = e := by
          rcases List.mem_cons.mp he with rfl | hmem
          · rfl
          · have hnm : x.key ∉ t.map Entry.key := (List.nodup_cons.mp hkx).1
            have hm : e.key ∈ t.map Entry.key := List.mem_map_of_mem Entry.key hmem
            rw [hk, ← hx] at hm
            exact absurd hm hnm
        rw [List.find?_cons_of_pos _ (by simpa using hx), hxe]
      · have hmem : e ∈ t := by
          rcases List.mem_cons.mp he with rfl | hmem
          · exact absurd hk hx
          · exact hmem
        rw [List.find?_cons_of_neg _ (by simpa using hx)]
        exact ih (List.nodup_cons.mp hkx).2 hmem

/-! ### The representation invariant and bucket surgery -/

/-- The bucket an entry's key selects under table length `L`. -/
def bucketAssign {K V : Type} (H : K → Nat) (L : Nat) : Entry K V → Nat :=
  fun e => H e.key % L

/-- Representation invariant tying `table_` to `elements_`: the table is
nonempty, keys and node ids are unique, ids are below the id supply, `size_`
counts the entries, and every bucket holds exactly the predecessor markers of
the entries hashing there (in some order). -/
structure HashMap.Inv (m : HashMap K V) : Prop where
  len_pos : 0 < m.table.length
  keys_nodup : (m.elements.map Entry.key).Nodup
  ids_nodup : (m.elements.map Entry.id).Nodup
  ids_lt : ∀ e ∈ m.elements, e.id < m.nextId
  size_eq : m.size = m.elements.length
  buckets : ∀ b, List.Perm (m.table.getD b [])
      (bml (bucketAssign m.hasher m.table.length) b (preds m.elements))

theorem bucket_no_match {p : Marker → Bool} {bkt M : List Marker}
    (hperm : List.Perm bkt M) (h : ∀ x ∈ M, p x = false) :
    findSlot p bkt = none :=
  (findSlot_eq_none_iff p bkt).mpr (fun x hx => h x (hperm.mem_iff.mp hx))

theorem bucket_surgery {p : Marker → Bool} {bkt X Y : List Marker} {μ : Marker}
    (hperm : List.Perm bkt (X ++ μ :: Y))
    (huniq : ∀ x ∈ X ++ μ :: Y, p x = true → x = μ)
    (hμ : p μ = true) :
    ∃ i, findSlot p bkt = some i ∧ i < bkt.length ∧ bkt.getD i none = μ ∧
      List.Perm (bkt.eraseIdx i) (X ++ Y) ∧
      ∀ v, List.Perm (bkt.set i v) (v :: (X ++ Y)) := by
  have hmem : μ ∈ bkt := hperm.mem_iff.mpr (by simp)
  obtain ⟨i, hi⟩ := findSlot_isSome_of_mem hmem hμ
  obtain ⟨hlt, hp⟩ := findSlot_spec none hi
  have hval : bkt.getD i none = μ :=
    huniq _ (hperm.mem_iff.mp (list_getD_mem none hlt)) hp
  have hsplit : List.Perm bkt (μ :: (X ++ Y)) :=
    hperm.trans List.perm_middle
  have hcons : List.Perm bkt (μ :: bkt.eraseIdx i) := by
    have := list_perm_getD_cons_eraseIdx none hlt
    rwa [hval] at this
  have herase : List.Perm (bkt.eraseIdx i) (X ++ Y) :=
    (hcons.symm.trans hsplit).cons_inv
  refine ⟨i, hi, hlt, hval, herase, fun v => ?_⟩
  exact (list_set_perm_cons_eraseIdx v hlt).trans (herase.cons v)

theorem preds_snd_inj {K V : Type} {es : List (Entry K V)}
    (hids : (es.map Entry.id).Nodup) {q q' : Marker × Entry K V}
    (hq : q ∈ preds es) (hq' : q' ∈ preds es) (h : q.2 = q'.2) : q = q' := by
  have hes : es.Nodup := List.Nodup.of_map Entry.id hids
  have hsnd : ((preds es).map Prod.snd).Nodup := by
    rw [preds, pairsFrom_snd]; exact hes
  exact List.inj_on_of_nodup_map hsnd hq hq' h

theorem snd_mem_of_mem_preds {K V : Type} {es : List (Entry K V)}
    {q : Marker × Entry K V} (hq : q ∈ preds es) : q.2 ∈ es := by
  have : q.2 ∈ (preds es).map Prod.snd := List.mem_map_of_mem Prod.snd hq
  rwa [preds, pairsFrom_snd] at this

theorem model_match_unique {K V : Type} [DecidableEq K] {es : List (Entry K V)}
    (hids : (es.map Entry.id).Nodup) (hkeys : (es.map Entry.key).Nodup)
    {k : K} {e : Entry K V} {pk : Marker}
    (hpair : (pk, e) ∈ preds es) (hkey : e.key = k)
    {g : Entry K V → Nat} {b : Nat} :
    ∀ mk ∈ bml g b (preds es), markerMatches es k mk = true → mk = pk := by
  intro mk hmk hmatch
  obtain ⟨q, hq, _, rfl⟩ := mem_bml.mp hmk
  have hsucc : succAt es q.1 = some q.2 := succAt_of_mem_preds hids hq
  have hkeyq : q.2.key = k := by
    unfold markerMatches at hmatch
    rw [hsucc] at hmatch
    simpa using hmatch
  have : q.2 = e :=
    entry_key_inj hkeys (snd_mem_of_mem_preds hq) (snd_mem_of_mem_preds hpair)
      (hkeyq.trans hkey.symm)
  have := preds_snd_inj hids hq hpair this
  exact congrArg Prod.fst this

theorem model_no_match {K V : Type} [DecidableEq K] {es : List (Entry K V)}
    (hids : (es.map Entry.id).Nodup) {k : K}
    (habs : k ∉ es.map Entry.key) {g : Entry K V → Nat} {b : Nat} :
    ∀ mk ∈ bml g b (preds es), markerMatches es k mk = false := by
  intro mk hmk
  obtain ⟨q, hq, _, rfl⟩ := mem_bml.mp hmk
  have hsucc : succAt es q.1 = some q.2 := succAt_of_mem_preds hids hq
  unfold markerMatches
  rw [hsucc]
  simp only [decide_eq_false_iff_not]
  intro hc
  exact habs (hc ▸ List.mem_map_of_mem Entry.key (snd_mem_of_mem_preds hq))

/-- Decompose the bucket model of the bucket a present key hashes to around
that key's own predecessor marker. -/
theorem model_split_at {K V : Type} {es A B : List (Entry K V)}
    (g : Entry K V → Nat) {e : Entry K V}
    (hsplit : es = A ++ e :: B) (b : Nat) (hb : g e = b) :
    bml g b (preds es) =
      bml g b (pairsFrom none A) ++ lastPosFrom none A ::
        bml g b (pairsFrom (some e.id) B) := by
  subst hsplit
  rw [preds, pairsFrom_append, bml_append]
  congr 1
  rw [show pairsFrom (lastPosFrom none A) (e :: B)
      = (lastPosFrom none A, e) :: pairsFrom (some e.id) B from rfl]
  rw [bml_cons]
  simp [hb]

/-! ### Lookup characterization under the invariant -/

theorem HashMap.findEntry_eq {m : HashMap K V} (hm : m.Inv) (k : K) :
    m.findEntry k = m.elements.find? (fun e => decide (e.key = k)) := by
  by_cases hk : k ∈ m.elements.map Entry.key
  · obtain ⟨e, he, hkey⟩ := List.mem_map.mp hk
    obtain ⟨A, B, hsplit⟩ := List.append_of_mem he
    have hpairμ : (lastPosFrom none A, e) ∈ preds m.elements := by
      rw [preds, hsplit, pairsFrom_append]
      exact List.mem_append_right _ (List.mem_cons_self _ _)
    have hb : bucketAssign m.hasher m.table.length e
        = m.hasher k % m.table.length := by
      rw [bucketAssign, hkey]
    have hmodel := model_split_at (bucketAssign m.hasher m.table.length) hsplit
      (m.hasher k % m.table.length) hb
    have hperm : List.Perm (m.table.getD (m.hasher k % m.table.length) [])
        (bml (bucketAssign m.hasher m.table.length) (m.hasher k % m.table.length)
          (pairsFrom none A)
          ++ lastPosFrom none A ::
          bml (bucketAssign m.hasher m.table.length) (m.hasher k % m.table.length)
          (pairsFrom (some e.id) B)) := by
      have := hm.buckets (m.hasher k % m.table.length)
      rwa [hmodel] at this
    have hμ : markerMatches m.elements k (lastPosFrom none A) = true := by
      unfold markerMatches
      rw [succAt_of_mem_preds hm.ids_nodup hpairμ]
      simpa using hkey
    have huniq : ∀ x ∈ bml (bucketAssign m.hasher m.table.length)
          (m.hasher k % m.table.length) (pairsFrom none A)
        ++ lastPosFrom none A ::
          bml (bucketAssign m.hasher m.table.length) (m.hasher k % m.table.length)
          (pairsFrom (some e.id) B),
        markerMatches m.elements k x = true → x = lastPosFrom none A := by
      rw [← hmodel]
      exact model_match_unique hm.ids_nodup hm.keys_nodup hpairμ hkey
    obtain ⟨i, hi, _, hval, _, _⟩ := bucket_surgery hperm huniq hμ
    simp only [HashMap.findEntry]
    rw [hi]
    simp only []
    rw [hval, succAt_of_mem_preds hm.ids_nodup hpairμ,
      find?_key_of_mem hm.keys_nodup he hkey]
  · have hnone : findSlot (markerMatches m.elements k)
        (m.table.getD (m.hasher k % m.table.length) []) = none :=
      bucket_no_match (hm.buckets _) (model_no_match hm.ids_nodup hk)
    simp only [HashMap.findEntry]
    rw [hnone]
    simp only []
    have : m.elements.find? (fun e => decide (e.key = k)) = none := by
      apply List.find?_eq_none.mpr
      intro e he hd
      apply hk
      have hek : e.key = k := by simpa using hd
      rw [← hek]
      exact List.mem_map_of_mem Entry.key he
    rw [this]

theorem HashMap.findEntry_eq_none {m : HashMap K V} (hm : m.Inv) {k : K}
    (hk : k ∉ m.elements.map Entry.key) : m.findEntry k = none := by
  rw [m.findEntry_eq hm k]
  apply List.find?_eq_none.mpr
  intro e he hd
  apply hk
  have hek : e.key = k := by simpa using hd
  rw [← hek]
  exact List.mem_map_of_mem Entry.key he

theorem HashMap.findEntry_present {m : HashMap K V} (hm : m.Inv) {k : K}
    {e : Entry K V} (he : e ∈ m.elements) (hk : e.key = k) :
    m.findEntry k = some e := by
  rw [m.findEntry_eq hm k]
  exact find?_key_of_mem hm.keys_nodup he hk

theorem HashMap.findEntry_some {m : HashMap K V} (hm : m.Inv) {k : K}
    {e : Entry K V} (h : m.findEntry k = some e) : e ∈ m.elements ∧ e.key = k := by
  rw [m.findEntry_eq hm k] at h
  exact ⟨List.mem_of_find?_eq_some h, by simpa using List.find?_some h⟩

/-! ### Rehash preserves the invariant -/

theorem list_getD_append_right {α : Type} {l r : List α} {i : Nat} (d : α)
    (h : l.length ≤ i) : (l ++ r).getD i d = r.getD (i - l.length) d := by
  induction l generalizing i with
  | nil => simp
  | cons x t ih =>
      cases i with
      | zero => simp at h
      | succ j =>
          have : t.length ≤ j := by simpa [Nat.succ_le_succ_iff] using h
          simpa [List.getD] using ih this

theorem list_getD_replicate {α : Type} (n j : Nat) (a : α) :
    (List.replicate n a).getD j a = a := by
  induction n generalizing j with
  | zero => simp [List.getD]
  | succ n ih =>
      cases j with
      | zero => simp [List.replicate, List.getD]
      | succ j' => simpa [List.replicate, List.getD] using ih j'

theorem snd_mem_of_mem_pairsFrom {K V : Type} {l : List (Entry K V)} {p : Marker}
    {q : Marker × Entry K V} (hq : q ∈ pairsFrom p l) : q.2 ∈ l := by
  have : q.2 ∈ (pairsFrom p l).map Prod.snd := List.mem_map_of_mem Prod.snd hq
  rwa [pairsFrom_snd] at this

/-- Bucket assignment mid-rehash: entries already processed (their node id is
in `done`) use the doubled table size, the rest still the old one. -/
def mixedAssign {K V : Type} (H : K → Nat) (L : Nat) (done : List Nat) : Entry K V → Nat :=
  fun e => if e.id ∈ done then H e.key % (2 * L) else H e.key % L

theorem moveMarker_length {H : K → Nat} {es : List (Entry K V)} {L : Nat}
    (tbl : List (List Marker)) (e : Entry K V) :
    (moveMarker H es L tbl e).length = tbl.length := by
  unfold moveMarker
  by_cases h : H e.key % L = H e.key % tbl.length
  · simp [h]
  · simp only [if_neg h]
    rcases hfs : findSlot (markerMatches es e.key)
        (tbl.getD (H e.key % L) []) with _ | i
    · rfl
    · simp [List.length_set]

theorem rehash_fold {H : K → Nat} {esAll : List (Entry K V)} {L : Nat} (hL : 0 < L)
    (hkeys : (esAll.map Entry.key).Nodup) (hids : (esAll.map Entry.id).Nodup) :
    ∀ (todo done : List (Entry K V)) (_ : esAll = done ++ todo)
      (tbl : List (List Marker)) (_ : tbl.length = 2 * L)
      (_ : ∀ b, List.Perm (tbl.getD b [])
          (bml (mixedAssign H L (done.map Entry.id)) b (preds esAll))),
      (todo.foldl (moveMarker H esAll L) tbl).length = 2 * L ∧
      ∀ b, List.Perm ((todo.foldl (moveMarker H esAll L) tbl).getD b [])
          (bml (mixedAssign H L ((done ++ todo).map Entry.id)) b (preds esAll)) := by
  intro todo
  induction todo with
  | nil =>
      intro done hsplit tbl hlen hbuckets
      exact ⟨hlen, by simpa using hbuckets⟩
  | cons e todo' ih =>
      intro done hsplit tbl hlen hbuckets
      -- facts about e's position
      have hidsplit : ((done.map Entry.id) ++ e.id :: (todo'.map Entry.id)).Nodup := by
        rw [hsplit] at hids
        simpa using hids
      have hid_done : e.id ∉ done.map Entry.id := nodup_middle_not_mem_left hidsplit
      have hid_todo : e.id ∉ todo'.map Entry.id := by
        have h2 : (e.id :: ((done.map Entry.id) ++ (todo'.map Entry.id))).Nodup :=
          List.nodup_middle.mp hidsplit
        exact fun hc => (List.nodup_cons.mp h2).1 (List.mem_append_right _ hc)
      set g := mixedAssign H L (done.map Entry.id) with hg
      set g' := mixedAssign H L ((done ++ [e]).map Entry.id) with hg'
      have hge : g e = H e.key % L := by
        rw [hg]; simp [mixedAssign, hid_done]
      have hg'e : g' e = H e.key % (2 * L) := by
        rw [hg']; simp [mixedAssign]
      have hagree : ∀ q ∈ preds esAll, q.2.id ≠ e.id → g' q.2 = g q.2 := by
        intro q _ hne
        rw [hg, hg']
        simp only [mixedAssign, List.map_append, List.mem_append]
        have : (q.2.id ∈ done.map Entry.id ∨ q.2.id ∈ [e].map Entry.id)
            ↔ q.2.id ∈ done.map Entry.id := by
          constructor
          · rintro (h | h)
            · exact h
            · exact absurd (by simpa using h) hne
          · exact Or.inl
        rw [if_congr this rfl rfl]
      -- the pair decomposition around e
      have hpreds : preds esAll
          = pairsFrom none done ++ (lastPosFrom none done, e) :: pairsFrom (some e.id) todo' := by
        rw [preds, hsplit, pairsFrom_append]
        rfl
      have hpair : (lastPosFrom none done, e) ∈ preds esAll := by
        rw [hpreds]
        exact List.mem_append_right _ (List.mem_cons_self _ _)
      have hP1 : ∀ q ∈ pairsFrom (none : Marker) done, q.2.id ≠ e.id := by
        intro q hq hc
        exact hid_done (hc ▸ List.mem_map_of_mem Entry.id (snd_mem_of_mem_pairsFrom hq))
      have hP2 : ∀ q ∈ pairsFrom (some e.id) todo', q.2.id ≠ e.id := by
        intro q hq hc
        exact hid_todo (hc ▸ List.mem_map_of_mem Entry.id (snd_mem_of_mem_pairsFrom hq))
      -- both models in segment form
      have hmodel_of : ∀ (gg : Entry K V → Nat) (b : Nat),
          bml gg b (preds esAll)
            = bml gg b (pairsFrom none done)
              ++ (if gg e = b then [lastPosFrom none done] else [])
              ++ bml gg b (pairsFrom (some e.id) todo') := by
        intro gg b
        rw [hpreds, bml_append, bml_cons]
        by_cases h : gg e = b
        · simp [h]
        · simp [h]
      have hseg1 : ∀ b, bml g' b (pairsFrom none done) = bml g b (pairsFrom none done) := by
        intro b
        apply bml_congr
        intro q hq
        have hmem : q ∈ preds esAll := by
          rw [hpreds]
          exact List.mem_append_left _ hq
        exact hagree q hmem (hP1 q hq)
      have hseg2 : ∀ b, bml g' b (pairsFrom (some e.id) todo')
          = bml g b (pairsFrom (some e.id) todo') := by
        intro b
        apply bml_congr
        intro q hq
        have hmem : q ∈ preds esAll := by
          rw [hpreds]
          exact List.mem_append_right _ (List.mem_cons_of_mem _ hq)
        exact hagree q hmem (hP2 q hq)
      -- the one fold step
      have hstep : (moveMarker H esAll L tbl e).length = 2 * L ∧
          ∀ b, List.Perm ((moveMarker H esAll L tbl e).getD b [])
            (bml g' b (preds esAll)) := by
        by_cases hsame : H e.key % L = H e.key % tbl.length
        · have hmv : moveMarker H esAll L tbl e = tbl := by
            unfold moveMarker
            simp [hsame]
          rw [hmv]
          refine ⟨hlen, fun b => (hbuckets b).trans ?_⟩
          have hsame2 : H e.key % L = H e.key % (2 * L) := by
            rw [← hlen]; exact hsame
          have heq : bml g b (preds esAll) = bml g' b (preds esAll) := by
            apply bml_congr
            intro q hq
            by_cases hqe : q.2.id = e.id
            · have he' : e ∈ esAll := by rw [hsplit]; simp
              have hq2 : q.2 = e :=
                List.inj_on_of_nodup_map hids (snd_mem_of_mem_preds hq) he' hqe
              rw [hq2, hge, hg'e]
              exact hsame2
            · exact (hagree q hq hqe).symm
          rw [heq]
        · -- the marker moves from pb to nb
          have hpb_lt : H e.key % L < L := Nat.mod_lt _ hL
          have hnb_lt : H e.key % (2 * L) < 2 * L := Nat.mod_lt _ (by omega)
          have hperm0 : List.Perm (tbl.getD (H e.key % L) [])
              (bml g (H e.key % L) (pairsFrom none done)
                ++ lastPosFrom none done ::
                bml g (H e.key % L) (pairsFrom (some e.id) todo')) := by
            have := hbuckets (H e.key % L)
            rw [hmodel_of g (H e.key % L)] at this
            simpa [hge] using this
          have huniq : ∀ x ∈ bml g (H e.key % L) (pairsFrom none done)
                ++ lastPosFrom none done ::
                bml g (H e.key % L) (pairsFrom (some e.id) todo'),
              markerMatches esAll e.key x = true → x = lastPosFrom none done := by
            have h0 := model_match_unique hids hkeys hpair rfl
              (g := g) (b := H e.key % L)
            intro x hx
            apply h0
            rw [hmodel_of g (H e.key % L)]
            simpa [hge] using hx
          have hμ : markerMatches esAll e.key (lastPosFrom none done) = true := by
            unfold markerMatches
            rw [succAt_of_mem_preds hids hpair]
            simp
          obtain ⟨i, hi, hlt, hval, herase, _⟩ := bucket_surgery hperm0 huniq hμ
          have hmv : moveMarker H esAll L tbl e
              = (tbl.set (H e.key % tbl.length)
                  (lastPosFrom none done :: tbl.getD (H e.key % tbl.length) [])).set
                  (H e.key % L)
                  (((tbl.set (H e.key % tbl.length)
                    (lastPosFrom none done :: tbl.getD (H e.key % tbl.length) [])).getD
                      (H e.key % L) []).eraseIdx i) := by
            simp only [moveMarker]
            rw [if_neg hsame]
            simp only [hi]
            rw [hval]
          rw [hlen] at hmv hsame
          have hne : H e.key % L ≠ H e.key % (2 * L) := hsame
          constructor
          · rw [hmv]; simp [List.length_set, hlen]
          · intro b
            rw [hmv]
            have htbl1_pb : (tbl.set (H e.key % (2 * L))
                (lastPosFrom none done :: tbl.getD (H e.key % (2 * L)) [])).getD
                  (H e.key % L) [] = tbl.getD (H e.key % L) [] :=
              list_getD_set_ne tbl _ _ hne
            by_cases hb1 : b = H e.key % L
            · subst hb1
              rw [list_getD_set_self _ _ (by rw [List.length_set, hlen]; omega)]
              rw [htbl1_pb]
              rw [hmodel_of g' (H e.key % L), hseg1, hseg2]
              rw [if_neg (by rw [hg'e]; exact fun hc => hne hc.symm)]
              simpa using herase
            · rw [list_getD_set_ne _ _ _ hb1]
              by_cases hb2 : b = H e.key % (2 * L)
              · subst hb2
                rw [list_getD_set_self _ _ (by rw [hlen]; exact hnb_lt)]
                rw [hmodel_of g' (H e.key % (2 * L)), hseg1, hseg2]
                rw [if_pos (by rw [hg'e])]
                have hold : List.Perm (tbl.getD (H e.key % (2 * L)) [])
                    (bml g (H e.key % (2 * L)) (pairsFrom none done)
                      ++ bml g (H e.key % (2 * L)) (pairsFrom (some e.id) todo')) := by
                  have := hbuckets (H e.key % (2 * L))
                  rw [hmodel_of g (H e.key % (2 * L))] at this
                  rw [if_neg (by rw [hge]; exact hne)] at this
                  simpa using this
                refine (hold.cons (lastPosFrom none done)).trans ?_
                rw [List.append_assoc]
                exact (List.perm_middle).symm
              · rw [list_getD_set_ne _ _ _ hb2]
                refine (hbuckets b).trans ?_
                rw [hmodel_of g b, hmodel_of g' b, hseg1, hseg2]
                rw [if_neg (by rw [hge]; exact fun hc => hb1 hc.symm),
                  if_neg (by rw [hg'e]; exact fun hc => hb2 hc.symm)]
      -- recurse
      have hstep_len := hstep.1
      have hstep_buckets := hstep.2
      have := ih (done ++ [e]) (by rw [hsplit]; simp)
        (moveMarker H esAll L tbl e) hstep_len (by simpa [hg'] using hstep_buckets)
      rw [List.foldl_cons]
      refine ⟨this.1, fun b => (this.2 b).trans ?_⟩
      rw [show ((done ++ [e]) ++ todo').map Entry.id = (done ++ e :: todo').map Entry.id by simp]

theorem foldl_moveMarker_length {H : K → Nat} {es : List (Entry K V)} {L : Nat}
    (todo : List (Entry K V)) (tbl : List (List Marker)) :
    (todo.foldl (moveMarker H es L) tbl).length = tbl.length := by
  induction todo generalizing tbl with
  | nil => rfl
  | cons e t ih => rw [List.foldl_cons, ih, moveMarker_length]

theorem HashMap.rehash_elements (m : HashMap K V) : m.rehash.elements = m.elements := rfl

theorem HashMap.rehash_size (m : HashMap K V) : m.rehash.size = m.size := rfl

theorem HashMap.rehash_hasher (m : HashMap K V) : m.rehash.hasher = m.hasher := rfl

theorem HashMap.rehash_table_length (m : HashMap K V) :
    m.rehash.table.length = 2 * m.table.length := by
  show (m.elements.foldl (moveMarker m.hasher m.elements m.table.length)
      (m.table ++ List.replicate m.table.length [])).length = 2 * m.table.length
  rw [foldl_moveMarker_length]
  simp
  omega

theorem HashMap.inv_rehash {m : HashMap K V} (hm : m.Inv) : m.rehash.Inv := by
  have hL := hm.len_pos
  have htbl0len : (m.table ++ List.replicate m.table.length ([] : List Marker)).length
      = 2 * m.table.length := by
    simp
    omega
  have hinit : ∀ b, List.Perm
      ((m.table ++ List.replicate m.table.length ([] : List Marker)).getD b [])
      (bml (mixedAssign m.hasher m.table.length
        (([] : List (Entry K V)).map Entry.id)) b (preds m.elements)) := by
    intro b
    have hcongr : bml (mixedAssign m.hasher m.table.length
          (([] : List (Entry K V)).map Entry.id)) b (preds m.elements)
        = bml (bucketAssign m.hasher m.table.length) b (preds m.elements) := by
      apply bml_congr
      intro q _
      simp [mixedAssign, bucketAssign]
    rw [hcongr]
    by_cases hb : b < m.table.length
    · rw [list_getD_append_left _ hb]
      exact hm.buckets b
    · have hnil : (m.table ++ List.replicate m.table.length ([] : List Marker)).getD b []
          = [] := by
        by_cases hb2 : b < 2 * m.table.length
        · rw [list_getD_append_right _ (by omega)]
          exact list_getD_replicate _ _ _
        · exact list_getD_of_length_le _ (by rw [htbl0len]; omega)
      rw [hnil, bml_eq_nil_of_ge (L := m.table.length) (fun q _ => Nat.mod_lt _ hL)
        (by omega)]
    -- done
  have hfold := rehash_fold hL hm.keys_nodup hm.ids_nodup m.elements []
    rfl (m.table ++ List.replicate m.table.length []) htbl0len hinit
  refine ⟨?_, hm.keys_nodup, hm.ids_nodup, hm.ids_lt, hm.size_eq, ?_⟩
  · rw [HashMap.rehash_table_length]
    omega
  · intro b
    have hlen2 : m.rehash.table.length = 2 * m.table.length := m.rehash_table_length
    have hbkt := hfold.2 b
    have hcongr : bml (mixedAssign m.hasher m.table.length
          ((([] : List (Entry K V)) ++ m.elements).map Entry.id)) b (preds m.elements)
        = bml (bucketAssign m.hasher m.rehash.table.length) b (preds m.elements) := by
      apply bml_congr
      intro q hq
      have hqmem : q.2.id ∈ m.elements.map Entry.id :=
        List.mem_map_of_mem Entry.id (snd_mem_of_mem_preds hq)
      simp only [mixedAssign, bucketAssign, List.nil_append, hlen2]
      rw [if_pos hqmem]
    show List.Perm ((m.elements.foldl (moveMarker m.hasher m.elements m.table.length)
        (m.table ++ List.replicate m.table.length [])).getD b [])
      (bml (bucketAssign m.hasher m.rehash.table.length) b (preds m.elements))
    rw [← hcongr]
    exact hbkt

/-! ### Insert preserves the invariant -/

theorem HashMap.insertRaw_unfold_nil {m : HashMap K V} (hsz : ¬ 0 < m.size) (k : K) (v : V) :
    m.insertRaw (k, v) =
      (let marked : HashMap K V :=
        { hasher := m.hasher, elements := ⟨m.nextId, k, v⟩ :: m.elements,
          nextId := m.nextId + 1, size := m.size + 1,
          table := m.table.set (m.hasher k % m.table.length)
            (none :: m.table.getD (m.hasher k % m.table.length) []) };
       if marked.table.length < marked.size then marked.rehash else marked) := by
  simp only [HashMap.insertRaw, if_neg hsz]

theorem HashMap.insertRaw_unfold_cons {m : HashMap K V} {e0 : Entry K V} {i : Nat}
    (hsz : 0 < m.size) (hhead : m.elements.head? = some e0)
    (hi : findSlot (markerMatches m.elements e0.key)
      (m.table.getD (m.hasher e0.key % m.table.length) []) = some i) (k : K) (v : V) :
    m.insertRaw (k, v) =
      (let tbl1 := m.table.set (m.hasher e0.key % m.table.length)
          ((m.table.getD (m.hasher e0.key % m.table.length) []).set i (some m.nextId));
       let marked : HashMap K V :=
        { hasher := m.hasher, elements := ⟨m.nextId, k, v⟩ :: m.elements,
          nextId := m.nextId + 1, size := m.size + 1,
          table := tbl1.set (m.hasher k % tbl1.length)
            (none :: tbl1.getD (m.hasher k % tbl1.length) []) };
       if marked.table.length < marked.size then marked.rehash else marked) := by
  simp only [HashMap.insertRaw, if_pos hsz, hhead, hi]

/-- The container state just before the load-factor check inside `insert`:
node pushed, size bumped, `before_begin()` marker pushed into the key's
bucket of the already-rewired table `tbl1`. -/
def insertMarked (m : HashMap K V) (k : K) (v : V) (tbl1 : List (List Marker)) :
    HashMap K V :=
  { hasher := m.hasher, elements := ⟨m.nextId, k, v⟩ :: m.elements,
    nextId := m.nextId + 1, size := m.size + 1,
    table := tbl1.set (m.hasher k % tbl1.length)
      (none :: tbl1.getD (m.hasher k % tbl1.length) []) }

theorem inv_insertMarked {m : HashMap K V} (hm : m.Inv) {k : K} {v : V}
    (habs : k ∉ m.elements.map Entry.key) {tbl1 : List (List Marker)}
    (hlen : tbl1.length = m.table.length)
    (hbkts : ∀ b, List.Perm (tbl1.getD b [])
      (bml (bucketAssign m.hasher m.table.length) b
        (pairsFrom (some m.nextId) m.elements))) :
    (insertMarked m k v tbl1).Inv := by
  have hL := hm.len_pos
  have hnid : m.nextId ∉ m.elements.map Entry.id := by
    intro hc
    obtain ⟨e, he, heq⟩ := List.mem_map.mp hc
    exact absurd (heq ▸ hm.ids_lt e he) (by omega)
  have hmlen : (insertMarked m k v tbl1).table.length = m.table.length := by
    simp [insertMarked, List.length_set, hlen]
  refine ⟨?_, ?_, ?_, ?_, ?_, ?_⟩
  · rw [hmlen]; exact hL
  · show ((⟨m.nextId, k, v⟩ :: m.elements : List (Entry K V)).map Entry.key).Nodup
    rw [List.map_cons, List.nodup_cons]
    exact ⟨habs, hm.keys_nodup⟩
  · show ((⟨m.nextId, k, v⟩ :: m.elements : List (Entry K V)).map Entry.id).Nodup
    rw [List.map_cons, List.nodup_cons]
    exact ⟨hnid, hm.ids_nodup⟩
  · intro e he
    rcases List.mem_cons.mp he with rfl | he'
    · show m.nextId < m.nextId + 1; omega
    · have := hm.ids_lt e he'
      show e.id < m.nextId + 1
      omega
  · show m.size + 1 = (⟨m.nextId, k, v⟩ :: m.elements : List (Entry K V)).length
    rw [List.length_cons, hm.size_eq]
  · intro b
    rw [hmlen]
    have hpreds : preds ((⟨m.nextId, k, v⟩ : Entry K V) :: m.elements)
        = (none, (⟨m.nextId, k, v⟩ : Entry K V)) :: pairsFrom (some m.nextId) m.elements := rfl
    show List.Perm ((tbl1.set (m.hasher k % tbl1.length)
        (none :: tbl1.getD (m.hasher k % tbl1.length) [])).getD b [])
      (bml (bucketAssign m.hasher m.table.length) b
        (preds ((⟨m.nextId, k, v⟩ : Entry K V) :: m.elements)))
    rw [hpreds, bml_cons, hlen]
    by_cases hb : m.hasher k % m.table.length = b
    · rw [if_pos (by simpa [bucketAssign] using hb)]
      rw [← hb]
      rw [list_getD_set_self _ _ (by rw [hlen]; exact Nat.mod_lt _ hL)]
      exact List.Perm.cons none (by rw [hb]; exact hbkts b)
    · rw [if_neg (by simpa [bucketAssign] using hb)]
      rw [list_getD_set_ne _ _ _ (fun hc => hb hc.symm)]
      exact hbkts b

theorem HashMap.inv_insertRaw {m : HashMap K V} (hm : m.Inv) {k : K} {v : V}
    (habs : k ∉ m.elements.map Entry.key) : (m.insertRaw (k, v)).Inv := by
  have hL := hm.len_pos
  rcases hes : m.elements with _ | ⟨e0, rest⟩
  · -- the sequence was empty: no first-entry rewiring
    have hsz : ¬ 0 < m.size := by rw [hm.size_eq, hes]; simp
    rw [HashMap.insertRaw_unfold_nil hsz k v]
    have hmarked : (insertMarked m k v m.table).Inv := by
      apply inv_insertMarked hm habs rfl
      intro b
      have h0 := hm.buckets b
      rw [hes] at h0 ⊢
      rw [show bml (bucketAssign m.hasher m.table.length) b
          (preds ([] : List (Entry K V))) = [] from rfl] at h0
      rw [show bml (bucketAssign m.hasher m.table.length) b
          (pairsFrom (some m.nextId) ([] : List (Entry K V))) = [] from rfl]
      exact h0
    show (if (insertMarked m k v m.table).table.length < (insertMarked m k v m.table).size
        then (insertMarked m k v m.table).rehash else (insertMarked m k v m.table)).Inv
    split
    · exact HashMap.inv_rehash hmarked
    · exact hmarked
  · -- nonempty: the old first entry's marker is rewritten to the new node
    have hsz : 0 < m.size := by rw [hm.size_eq, hes]; simp
    have hhead : m.elements.head? = some e0 := by rw [hes]; rfl
    have hpair : ((none : Marker), e0) ∈ preds m.elements := by
      rw [hes]
      exact List.mem_cons_self _ _
    have hpreds_es : preds m.elements
        = (none, e0) :: pairsFrom (some e0.id) rest := by
      rw [hes]
      rfl
    have hb0 : bucketAssign m.hasher m.table.length e0
        = m.hasher e0.key % m.table.length := rfl
    have hmodel : bml (bucketAssign m.hasher m.table.length)
          (m.hasher e0.key % m.table.length) (preds m.elements)
        = [] ++ none :: bml (bucketAssign m.hasher m.table.length)
          (m.hasher e0.key % m.table.length) (pairsFrom (some e0.id) rest) := by
      rw [hpreds_es, bml_cons, if_pos hb0]
      rfl
    have hperm : List.Perm (m.table.getD (m.hasher e0.key % m.table.length) [])
        ([] ++ none :: bml (bucketAssign m.hasher m.table.length)
          (m.hasher e0.key % m.table.length) (pairsFrom (some e0.id) rest)) := by
      have h0 := hm.buckets (m.hasher e0.key % m.table.length)
      rwa [hmodel] at h0
    have huniq : ∀ x ∈ [] ++ none :: bml (bucketAssign m.hasher m.table.length)
          (m.hasher e0.key % m.table.length) (pairsFrom (some e0.id) rest),
        markerMatches m.elements e0.key x = true → x = none := by
      have h0 := model_match_unique hm.ids_nodup hm.keys_nodup hpair rfl
        (g := bucketAssign m.hasher m.table.length)
        (b := m.hasher e0.key % m.table.length)
      intro x hx
      apply h0
      rw [hmodel]
      exact hx
    have hμ : markerMatches m.elements e0.key none = true := by
      unfold markerMatches
      rw [show succAt m.elements none = some e0 from by rw [hes]; rfl]
      simp
    obtain ⟨i, hi, hlt, hval, herase, hset⟩ := bucket_surgery hperm huniq hμ
    rw [HashMap.insertRaw_unfold_cons hsz hhead hi k v]
    have hmarked : (insertMarked m k v (m.table.set (m.hasher e0.key % m.table.length)
        ((m.table.getD (m.hasher e0.key % m.table.length) []).set i
          (some m.nextId)))).Inv := by
      apply inv_insertMarked hm habs (by rw [List.length_set])
      intro b
      rw [hes]
      rw [show pairsFrom (some m.nextId) (e0 :: rest)
          = (some m.nextId, e0) :: pairsFrom (some e0.id) rest from rfl]
      rw [bml_cons]
      by_cases hb : b = m.hasher e0.key % m.table.length
      · subst hb
        rw [if_pos hb0]
        rw [list_getD_set_self _ _ (Nat.mod_lt _ hL)]
        have := hset (some m.nextId)
        rw [List.nil_append] at this
        exact this
      · rw [if_neg (by rw [hb0]; exact fun hc => hb hc.symm)]
        rw [list_getD_set_ne _ _ _ hb]
        have h0 := hm.buckets b
        rw [hpreds_es, bml_cons,
          if_neg (by rw [hb0]; exact fun hc => hb hc.symm)] at h0
        exact h0
    show (if (insertMarked m k v (m.table.set (m.hasher e0.key % m.table.length)
          ((m.table.getD (m.hasher e0.key % m.table.length) []).set i
            (some m.nextId)))).table.length
        < (insertMarked m k v (m.table.set (m.hasher e0.key % m.table.length)
          ((m.table.getD (m.hasher e0.key % m.table.length) []).set i
            (some m.nextId)))).size
        then (insertMarked m k v (m.table.set (m.hasher e0.key % m.table.length)
          ((m.table.getD (m.hasher e0.key % m.table.length) []).set i
            (some m.nextId)))).rehash
        else insertMarked m k v (m.table.set (m.hasher e0.key % m.table.length)
          ((m.table.getD (m.hasher e0.key % m.table.length) []).set i
            (some m.nextId)))).Inv
    split
    · exact HashMap.inv_rehash hmarked
    · exact hmarked

theorem HashMap.insertRaw_elements (m : HashMap K V) (p : K × V) :
    (m.insertRaw p).elements = ⟨m.nextId, p.1, p.2⟩ :: m.elements := by
  simp only [HashMap.insertRaw, HashMap.rehash]
  repeat' split
  all_goals rfl

theorem HashMap.insertRaw_size (m : HashMap K V) (p : K × V) :
    (m.insertRaw p).size = m.size + 1 := by
  simp only [HashMap.insertRaw, HashMap.rehash]
  repeat' split
  all_goals rfl

theorem HashMap.insertRaw_hasher (m : HashMap K V) (p : K × V) :
    (m.insertRaw p).hasher = m.hasher := by
  simp only [HashMap.insertRaw, HashMap.rehash]
  repeat' split
  all_goals rfl

theorem HashMap.insert_of_present {m : HashMap K V} {p : K × V}
    (h : (m.findEntry p.1).isSome) : m.insert p = m := by
  simp [HashMap.insert, h]

theorem HashMap.insert_of_absent {m : HashMap K V} {p : K × V}
    (h : m.findEntry p.1 = none) : m.insert p = m.insertRaw p := by
  simp [HashMap.insert, h]

theorem HashMap.absent_of_findEntry_none {m : HashMap K V} (hm : m.Inv) {k : K}
    (h : m.findEntry k = none) : k ∉ m.elements.map Entry.key := by
  intro hc
  obtain ⟨e, he, hkey⟩ := List.mem_map.mp hc
  rw [m.findEntry_present hm he hkey] at h
  cases h

theorem HashMap.inv_insert {m : HashMap K V} (hm : m.Inv) (p : K × V) :
    (m.insert p).Inv := by
  rcases h : m.findEntry p.1 with _ | e
  · rw [HashMap.insert_of_absent h]
    exact HashMap.inv_insertRaw hm (m.absent_of_findEntry_none hm h)
  · rw [HashMap.insert_of_present (by rw [h]; rfl)]
    exact hm

/-! ### Erase preserves the invariant -/

theorem HashMap.erase_of_no_slot {m : HashMap K V} {k : K}
    (h : findSlot (markerMatches m.elements k)
      (m.table.getD (m.hasher k % m.table.length) []) = none) :
    m.erase k = m := by
  simp only [HashMap.erase, h]

theorem HashMap.erase_unfold_last {m : HashMap K V} {k : K} {i : Nat} {tgt : Entry K V}
    (hi : findSlot (markerMatches m.elements k)
      (m.table.getD (m.hasher k % m.table.length) []) = some i)
    (htgt : succAt m.elements
      ((m.table.getD (m.hasher k % m.table.length) []).getD i none) = some tgt)
    (hlast : succAt m.elements (some tgt.id) = none) :
    m.erase k =
      { m with
        elements := removeAfter m.elements
          ((m.table.getD (m.hasher k % m.table.length) []).getD i none),
        table := m.table.set (m.hasher k % m.table.length)
          ((m.table.getD (m.hasher k % m.table.length) []).eraseIdx i),
        size := m.size - 1 } := by
  simp only [HashMap.erase, hi, htgt, hlast]

theorem HashMap.erase_unfold_mid {m : HashMap K V} {k : K} {i j : Nat}
    {tgt ne : Entry K V}
    (hi : findSlot (markerMatches m.elements k)
      (m.table.getD (m.hasher k % m.table.length) []) = some i)
    (htgt : succAt m.elements
      ((m.table.getD (m.hasher k % m.table.length) []).getD i none) = some tgt)
    (hne : succAt m.elements (some tgt.id) = some ne)
    (hj : findSlot (markerMatches m.elements ne.key)
      (m.table.getD (m.hasher ne.key % m.table.length) []) = some j) :
    m.erase k =
      { m with
        elements := removeAfter m.elements
          ((m.table.getD (m.hasher k % m.table.length) []).getD i none),
        table := (m.table.set (m.hasher ne.key % m.table.length)
            ((m.table.getD (m.hasher ne.key % m.table.length) []).set j
              ((m.table.getD (m.hasher k % m.table.length) []).getD i none))).set
          (m.hasher k % m.table.length)
          (((m.table.set (m.hasher ne.key % m.table.length)
            ((m.table.getD (m.hasher ne.key % m.table.length) []).set j
              ((m.table.getD (m.hasher k % m.table.length) []).getD i none))).getD
                (m.hasher k % m.table.length) []).eraseIdx i),
        size := m.size - 1 } := by
  simp only [HashMap.erase, hi, htgt, hne, hj]

theorem model_split_if {K V : Type} {es A B : List (Entry K V)}
    (g : Entry K V → Nat) {e : Entry K V}
    (hsplit : es = A ++ e :: B) (b : Nat) :
    bml g b (preds es) =
      bml g b (pairsFrom none A)
        ++ (if g e = b then [lastPosFrom none A] else [])
        ++ bml g b (pairsFrom (some e.id) B) := by
  subst hsplit
  rw [preds, pairsFrom_append, bml_append]
  rw [show pairsFrom (lastPosFrom none A) (e :: B)
      = (lastPosFrom none A, e) :: pairsFrom (some e.id) B from rfl]
  rw [bml_cons]
  by_cases h : g e = b
  · simp [h]
  · simp [h]

theorem HashMap.erase_absent {m : HashMap K V} (hm : m.Inv) {k : K}
    (habs : k ∉ m.elements.map Entry.key) : m.erase k = m :=
  HashMap.erase_of_no_slot
    (bucket_no_match (hm.buckets _) (model_no_match hm.ids_nodup habs))

theorem nodup_middle_drop {α : Type} {X Y : List α} {a : α}
    (h : (X ++ a :: Y).Nodup) : (X ++ Y).Nodup :=
  (List.nodup_cons.mp (List.nodup_middle.mp h)).2

theorem filter_middle_key {K V : Type} [DecidableEq K] {es u w : List (Entry K V)}
    {e : Entry K V} {k : K}
    (hkeys : (es.map Entry.key).Nodup) (hsplit : es = u ++ e :: w) (hk : e.key = k) :
    es.filter (fun x => !(decide (x.key = k))) = u ++ w := by
  subst hsplit
  have hkeys' : ((u.map Entry.key) ++ e.key :: (w.map Entry.key)).Nodup := by
    simpa using hkeys
  have hu : ∀ x ∈ u, x.key ≠ k := by
    intro x hx hc
    apply nodup_middle_not_mem_left hkeys'
    rw [hk, ← hc]
    exact List.mem_map_of_mem Entry.key hx
  have hw : ∀ x ∈ w, x.key ≠ k := by
    intro x hx hc
    have h2 := (List.nodup_cons.mp (List.nodup_middle.mp hkeys')).1
    apply h2
    apply List.mem_append_right
    rw [hk, ← hc]
    exact List.mem_map_of_mem Entry.key hx
  rw [List.filter_append, List.filter_cons]
  rw [if_neg (by simp [hk])]
  rw [List.filter_eq_self.mpr (fun x hx => by simpa using hu x hx),
    List.filter_eq_self.mpr (fun x hx => by simpa using hw x hx)]

theorem HashMap.erase_present {m : HashMap K V} (hm : m.Inv) {k : K} {e : Entry K V}
    (he : e ∈ m.elements) (hkey : e.key = k) :
    (m.erase k).Inv ∧
    (m.erase k).elements = m.elements.filter (fun x => !(decide (x.key = k))) ∧
    (m.erase k).size = m.size - 1 ∧
    (m.erase k).hasher = m.hasher ∧
    (m.erase k).table.length = m.table.length ∧
    (m.erase k).nextId = m.nextId := by
  have hL := hm.len_pos
  obtain ⟨u, w, hsplit⟩ := List.append_of_mem he
  have hkeys' : ((u.map Entry.key) ++ e.key :: (w.map Entry.key)).Nodup := by
    have h0 := hm.keys_nodup
    rw [hsplit] at h0
    simpa using h0
  have hids' : ((u.map Entry.id) ++ e.id :: (w.map Entry.id)).Nodup := by
    have h0 := hm.ids_nodup
    rw [hsplit] at h0
    simpa using h0
  have haidu : e.id ∉ u.map Entry.id := nodup_middle_not_mem_left hids'
  have hpair : (lastPosFrom none u, e) ∈ preds m.elements := by
    rw [preds, hsplit, pairsFrom_append]
    exact List.mem_append_right _ (List.mem_cons_self _ _)
  have hsucc_pk : succAt m.elements (lastPosFrom none u) = some e :=
    succAt_of_mem_preds hm.ids_nodup hpair
  have hfilter : m.elements.filter (fun x => !(decide (x.key = k))) = u ++ w :=
    filter_middle_key hm.keys_nodup hsplit hkey
  have hremove : removeAfter m.elements (lastPosFrom none u) = u ++ w :=
    removeAfter_seg hm.ids_nodup hsplit
  have hkeys_new : ((u ++ w).map Entry.key).Nodup := by
    rw [List.map_append]
    exact nodup_middle_drop hkeys'
  have hids_new : ((u ++ w).map Entry.id).Nodup := by
    rw [List.map_append]
    exact nodup_middle_drop hids'
  have hmem_new : ∀ x ∈ u ++ w, x ∈ m.elements := by
    intro x hx
    rw [hsplit]
    rcases List.mem_append.mp hx with h | h
    · exact List.mem_append_left _ h
    · exact List.mem_append_right _ (List.mem_cons_of_mem _ h)
  have hsize_new : m.size - 1 = (u ++ w).length := by
    have h0 := hm.size_eq
    rw [hsplit] at h0
    simp only [List.length_append, List.length_cons] at h0
    simp only [List.length_append]
    omega
  have hbke : bucketAssign m.hasher m.table.length e = m.hasher k % m.table.length := by
    rw [bucketAssign, hkey]
  have hbk_lt : m.hasher k % m.table.length < m.table.length := Nat.mod_lt _ hL
  have hμ1 : markerMatches m.elements k (lastPosFrom none u) = true := by
    unfold markerMatches
    rw [hsucc_pk]
    simpa using hkey
  rcases hw : w with _ | ⟨ne, w'⟩
  · -- e is the last entry: no successor rewiring
    subst hw
    have hlast : succAt m.elements (some e.id) = none := by
      rw [hsplit]
      show sucAfter (u ++ e :: []) e.id = none
      rw [sucAfter_middle haidu]
      rfl
    have hmodel := model_split_at (bucketAssign m.hasher m.table.length) hsplit
      (m.hasher k % m.table.length) hbke
    have hperm1 : List.Perm (m.table.getD (m.hasher k % m.table.length) [])
        (bml (bucketAssign m.hasher m.table.length) (m.hasher k % m.table.length)
          (pairsFrom none u)
         ++ lastPosFrom none u ::
          bml (bucketAssign m.hasher m.table.length) (m.hasher k % m.table.length)
          (pairsFrom (some e.id) ([] : List (Entry K V)))) := by
      have h0 := hm.buckets (m.hasher k % m.table.length)
      rwa [hmodel] at h0
    have huniq1 : ∀ x ∈ bml (bucketAssign m.hasher m.table.length)
          (m.hasher k % m.table.length) (pairsFrom none u)
        ++ lastPosFrom none u ::
          bml (bucketAssign m.hasher m.table.length) (m.hasher k % m.table.length)
          (pairsFrom (some e.id) ([] : List (Entry K V))),
        markerMatches m.elements k x = true → x = lastPosFrom none u := by
      intro x hx
      apply model_match_unique hm.ids_nodup hm.keys_nodup hpair hkey
      rw [hmodel]
      exact hx
    obtain ⟨i, hi, hlt, hval, herase, _⟩ := bucket_surgery hperm1 huniq1 hμ1
    have htgt : succAt m.elements
        ((m.table.getD (m.hasher k % m.table.length) []).getD i none) = some e := by
      rw [hval]
      exact hsucc_pk
    rw [HashMap.erase_unfold_last hi htgt hlast, hval]
    refine ⟨?_, ?_, ?_, ?_, ?_, ?_⟩
    · refine ⟨?_, ?_, ?_, ?_, ?_, ?_⟩
      · show 0 < (m.table.set (m.hasher k % m.table.length) _).length
        rw [List.length_set]
        exact hL
      · show ((removeAfter m.elements (lastPosFrom none u)).map Entry.key).Nodup
        rw [hremove]
        exact hkeys_new
      · show ((removeAfter m.elements (lastPosFrom none u)).map Entry.id).Nodup
        rw [hremove]
        exact hids_new
      · show ∀ x ∈ removeAfter m.elements (lastPosFrom none u), x.id < m.nextId
        rw [hremove]
        exact fun x hx => hm.ids_lt x (hmem_new x hx)
      · show m.size - 1 = (removeAfter m.elements (lastPosFrom none u)).length
        rw [hremove]
        exact hsize_new
      · intro b
        show List.Perm ((m.table.set (m.hasher k % m.table.length)
            ((m.table.getD (m.hasher k % m.table.length) []).eraseIdx i)).getD b [])
          (bml (bucketAssign m.hasher
            (m.table.set (m.hasher k % m.table.length)
              ((m.table.getD (m.hasher k % m.table.length) []).eraseIdx i)).length) b
            (preds (removeAfter m.elements (lastPosFrom none u))))
        rw [List.length_set, hremove]
        have hnew : bml (bucketAssign m.hasher m.table.length) b (preds (u ++ []))
            = bml (bucketAssign m.hasher m.table.length) b (pairsFrom none u) := by
          rw [preds, pairsFrom_append]
          rw [show pairsFrom (lastPosFrom none u) ([] : List (Entry K V)) = [] from rfl]
          rw [List.append_nil]
        rw [hnew]
        by_cases hb : b = m.hasher k % m.table.length
        · subst hb
          rw [list_getD_set_self _ _ hbk_lt]
          refine herase.trans ?_
          rw [show bml (bucketAssign m.hasher m.table.length)
              (m.hasher k % m.table.length)
              (pairsFrom (some e.id) ([] : List (Entry K V))) = [] from rfl]
          rw [List.append_nil]
        · rw [list_getD_set_ne _ _ _ hb]
          have h0 := hm.buckets b
          rw [model_split_if (bucketAssign m.hasher m.table.length) hsplit b] at h0
          rw [if_neg (fun hc => hb ((hbke ▸ hc : m.hasher k % m.table.length = b)).symm)] at h0
          rw [show bml (bucketAssign m.hasher m.table.length) b
              (pairsFrom (some e.id) ([] : List (Entry K V))) = [] from rfl] at h0
          simpa using h0
    · show removeAfter m.elements (lastPosFrom none u)
        = m.elements.filter (fun x => !(decide (x.key = k)))
      rw [hremove, hfilter]
    · rfl
    · rfl
    · show (m.table.set (m.hasher k % m.table.length) _).length = m.table.length
      rw [List.length_set]
    · rfl
  · -- e has a successor ne whose marker is rewired to e's predecessor
    subst hw
    have hne_succ : succAt m.elements (some e.id) = some ne := by
      rw [hsplit]
      show sucAfter (u ++ e :: ne :: w') e.id = some ne
      rw [sucAfter_middle haidu]
      rfl
    have hpreds2 : preds m.elements
        = pairsFrom none u ++ (lastPosFrom none u, e) :: (some e.id, ne)
            :: pairsFrom (some ne.id) w' := by
      rw [preds, hsplit, pairsFrom_append]
      rfl
    have hpairne : ((some e.id : Marker), ne) ∈ preds m.elements := by
      rw [hpreds2]
      exact List.mem_append_right _ (List.mem_cons_of_mem _ (List.mem_cons_self _ _))
    have hμ2 : markerMatches m.elements ne.key (some e.id) = true := by
      unfold markerMatches
      rw [hne_succ]
      simp
    have htb_lt : m.hasher ne.key % m.table.length < m.table.length := Nat.mod_lt _ hL
    have hbne : bucketAssign m.hasher m.table.length ne
        = m.hasher ne.key % m.table.length := rfl
    have hmodel_of : ∀ b, bml (bucketAssign m.hasher m.table.length) b (preds m.elements)
        = bml (bucketAssign m.hasher m.table.length) b (pairsFrom none u)
          ++ ((if bucketAssign m.hasher m.table.length e = b
                then [lastPosFrom none u] else [])
          ++ ((if bucketAssign m.hasher m.table.length ne = b
                then [(some e.id : Marker)] else [])
          ++ bml (bucketAssign m.hasher m.table.length) b (pairsFrom (some ne.id) w'))) := by
      intro b
      rw [hpreds2, bml_append, bml_cons, bml_cons]
      by_cases h1 : bucketAssign m.hasher m.table.length e = b
        <;> by_cases h2 : bucketAssign m.hasher m.table.length ne = b
        <;> simp [h1, h2]
    have hnewmodel : ∀ b, bml (bucketAssign m.hasher m.table.length) b
          (preds (u ++ ne :: w'))
        = bml (bucketAssign m.hasher m.table.length) b (pairsFrom none u)
          ++ ((if bucketAssign m.hasher m.table.length ne = b
                then [lastPosFrom none u] else [])
          ++ bml (bucketAssign m.hasher m.table.length) b (pairsFrom (some ne.id) w')) := by
      intro b
      rw [preds, pairsFrom_append]
      rw [show pairsFrom (lastPosFrom none u) (ne :: w')
          = (lastPosFrom none u, ne) :: pairsFrom (some ne.id) w' from rfl]
      rw [bml_append, bml_cons]
      by_cases h : bucketAssign m.hasher m.table.length ne = b <;> simp [h]
    by_cases htb : m.hasher ne.key % m.table.length = m.hasher k % m.table.length
    · -- both keys share a bucket
      have hgne : bucketAssign m.hasher m.table.length ne = m.hasher k % m.table.length :=
        hbne.trans htb
      have h0 : List.Perm (m.table.getD (m.hasher k % m.table.length) [])
          (bml (bucketAssign m.hasher m.table.length) (m.hasher k % m.table.length)
            (pairsFrom none u)
           ++ lastPosFrom none u :: (some e.id : Marker) ::
            bml (bucketAssign m.hasher m.table.length) (m.hasher k % m.table.length)
            (pairsFrom (some ne.id) w')) := by
        have hb0 := hm.buckets (m.hasher k % m.table.length)
        rw [hmodel_of (m.hasher k % m.table.length), if_pos hbke, if_pos hgne] at hb0
        simpa using hb0
      have huniq1 : ∀ x ∈ bml (bucketAssign m.hasher m.table.length)
            (m.hasher k % m.table.length) (pairsFrom none u)
          ++ lastPosFrom none u :: (some e.id : Marker) ::
            bml (bucketAssign m.hasher m.table.length) (m.hasher k % m.table.length)
            (pairsFrom (some ne.id) w'),
          markerMatches m.elements k x = true → x = lastPosFrom none u := by
        intro x hx
        apply model_match_unique hm.ids_nodup hm.keys_nodup hpair hkey
        rw [hmodel_of (m.hasher k % m.table.length), if_pos hbke, if_pos hgne]
        simpa using hx
      obtain ⟨i, hi, hlt1, hval1, _, _⟩ := bucket_surgery h0 huniq1 hμ1
      have h1 : List.Perm (m.table.getD (m.hasher k % m.table.length) [])
          ((bml (bucketAssign m.hasher m.table.length) (m.hasher k % m.table.length)
            (pairsFrom none u) ++ [lastPosFrom none u])
           ++ (some e.id : Marker) ::
            bml (bucketAssign m.hasher m.table.length) (m.hasher k % m.table.length)
            (pairsFrom (some ne.id) w')) := by
        refine h0.trans ?_
        rw [List.append_assoc]
        simp
      have huniq2 : ∀ x ∈ (bml (bucketAssign m.hasher m.table.length)
            (m.hasher k % m.table.length) (pairsFrom none u) ++ [lastPosFrom none u])
          ++ (some e.id : Marker) ::
            bml (bucketAssign m.hasher m.table.length) (m.hasher k % m.table.length)
            (pairsFrom (some ne.id) w'),
          markerMatches m.elements ne.key x = true → x = some e.id := by
        intro x hx
        apply model_match_unique hm.ids_nodup hm.keys_nodup hpairne rfl
        rw [hmodel_of (m.hasher k % m.table.length), if_pos hbke, if_pos hgne]
        rw [List.append_assoc] at hx
        simpa using hx
      obtain ⟨j, hj, hlt2, hval2, _, hset2⟩ := bucket_surgery h1 huniq2 hμ2
      have htgt : succAt m.elements
          ((m.table.getD (m.hasher k % m.table.length) []).getD i none) = some e := by
        rw [hval1]
        exact hsucc_pk
      have hj' : findSlot (markerMatches m.elements ne.key)
          (m.table.getD (m.hasher ne.key % m.table.length) []) = some j := by
        rw [htb]
        exact hj
      rw [HashMap.erase_unfold_mid hi htgt hne_succ hj', hval1, htb]
      have hbkt' : List.Perm ((m.table.getD (m.hasher k % m.table.length) []).set j
          (lastPosFrom none u))
          (lastPosFrom none u ::
            ((bml (bucketAssign m.hasher m.table.length) (m.hasher k % m.table.length)
              (pairsFrom none u) ++ [lastPosFrom none u])
             ++ bml (bucketAssign m.hasher m.table.length) (m.hasher k % m.table.length)
              (pairsFrom (some ne.id) w'))) := hset2 (lastPosFrom none u)
      have hgd : ((m.table.getD (m.hasher k % m.table.length) []).set j
          (lastPosFrom none u)).getD i none = lastPosFrom none u := by
        by_cases hij : i = j
        · subst hij
          exact list_getD_set_self _ _ hlt1
        · rw [list_getD_set_ne _ _ _ hij]
          exact hval1
      refine ⟨?_, ?_, ?_, ?_, ?_, ?_⟩
      · refine ⟨?_, ?_, ?_, ?_, ?_, ?_⟩
        · show 0 < (List.set _ _ _).length
          rw [List.length_set, List.length_set]
          exact hL
        · show ((removeAfter m.elements (lastPosFrom none u)).map Entry.key).Nodup
          rw [hremove]
          exact hkeys_new
        · show ((removeAfter m.elements (lastPosFrom none u)).map Entry.id).Nodup
          rw [hremove]
          exact hids_new
        · show ∀ x ∈ removeAfter m.elements (lastPosFrom none u), x.id < m.nextId
          rw [hremove]
          exact fun x hx => hm.ids_lt x (hmem_new x hx)
        · show m.size - 1 = (removeAfter m.elements (lastPosFrom none u)).length
          rw [hremove]
          exact hsize_new
        · intro b
          show List.Perm ((((m.table.set (m.hasher k % m.table.length)
              ((m.table.getD (m.hasher k % m.table.length) []).set j
                (lastPosFrom none u))).set (m.hasher k % m.table.length)
              ((((m.table.set (m.hasher k % m.table.length)
                ((m.table.getD (m.hasher k % m.table.length) []).set j
                  (lastPosFrom none u)))).getD (m.hasher k % m.table.length) []).eraseIdx
                    i))).getD b [])
            (bml (bucketAssign m.hasher (((m.table.set (m.hasher k % m.table.length)
              ((m.table.getD (m.hasher k % m.table.length) []).set j
                (lastPosFrom none u))).set (m.hasher k % m.table.length)
              ((((m.table.set (m.hasher k % m.table.length)
                ((m.table.getD (m.hasher k % m.table.length) []).set j
                  (lastPosFrom none u)))).getD (m.hasher k % m.table.length) []).eraseIdx
                    i))).length) b
              (preds (removeAfter m.elements (lastPosFrom none u))))
          rw [List.length_set, List.length_set, hremove, hnewmodel b]
          by_cases hb : b = m.hasher k % m.table.length
          · subst hb
            rw [list_getD_set_self _ _ (by rw [List.length_set]; exact hbk_lt)]
            rw [list_getD_set_self _ _ hbk_lt]
            have hlt1' : i < ((m.table.getD (m.hasher k % m.table.length) []).set j
                (lastPosFrom none u)).length := by
              rw [List.length_set]
              exact hlt1
            have hperm' := list_perm_getD_cons_eraseIdx none hlt1'
            rw [hgd] at hperm'
            have herase' := (hperm'.symm.trans hbkt').cons_inv
            refine herase'.trans ?_
            rw [if_pos hgne, ← List.append_assoc]
          · rw [list_getD_set_ne _ _ _ hb, list_getD_set_ne _ _ _ hb]
            have hb0 := hm.buckets b
            rw [hmodel_of b,
              if_neg (fun hc => hb ((hbke ▸ hc : m.hasher k % m.table.length = b)).symm),
              if_neg (fun hc => hb ((hgne ▸ hc : m.hasher k % m.table.length = b)).symm)]
              at hb0
            rw [if_neg (fun hc => hb ((hgne ▸ hc : m.hasher k % m.table.length = b)).symm)]
            simpa using hb0
      · show removeAfter m.elements (lastPosFrom none u)
          = m.elements.filter (fun x => !(decide (x.key = k)))
        rw [hremove, hfilter]
      · rfl
      · rfl
      · show (List.set _ _ _).length = m.table.length
        rw [List.length_set, List.length_set]
      · rfl
    · -- the two keys live in different buckets
      have hgne_ne : bucketAssign m.hasher m.table.length ne ≠ m.hasher k % m.table.length :=
        fun hc => htb (hbne.symm.trans hc)
      have hge_ne_tb : bucketAssign m.hasher m.table.length e
          ≠ m.hasher ne.key % m.table.length :=
        fun hc => htb ((hbke.symm.trans hc).symm)
      have h0 : List.Perm (m.table.getD (m.hasher k % m.table.length) [])
          (bml (bucketAssign m.hasher m.table.length) (m.hasher k % m.table.length)
            (pairsFrom none u)
           ++ lastPosFrom none u ::
            bml (bucketAssign m.hasher m.table.length) (m.hasher k % m.table.length)
            (pairsFrom (some ne.id) w')) := by
        have hb0 := hm.buckets (m.hasher k % m.table.length)
        rw [hmodel_of (m.hasher k % m.table.length), if_pos hbke,
          if_neg hgne_ne] at hb0
        simpa using hb0
      have huniq1 : ∀ x ∈ bml (bucketAssign m.hasher m.table.length)
            (m.hasher k % m.table.length) (pairsFrom none u)
          ++ lastPosFrom none u ::
            bml (bucketAssign m.hasher m.table.length) (m.hasher k % m.table.length)
            (pairsFrom (some ne.id) w'),
          markerMatches m.elements k x = true → x = lastPosFrom none u := by
        intro x hx
        apply model_match_unique hm.ids_nodup hm.keys_nodup hpair hkey
        rw [hmodel_of (m.hasher k % m.table.length), if_pos hbke, if_neg hgne_ne]
        simpa using hx
      obtain ⟨i, hi, hlt1, hval1, herase1, _⟩ := bucket_surgery h0 huniq1 hμ1
      have h1 : List.Perm (m.table.getD (m.hasher ne.key % m.table.length) [])
          (bml (bucketAssign m.hasher m.table.length) (m.hasher ne.key % m.table.length)
            (pairsFrom none u)
           ++ (some e.id : Marker) ::
            bml (bucketAssign m.hasher m.table.length) (m.hasher ne.key % m.table.length)
            (pairsFrom (some ne.id) w')) := by
        have hb0 := hm.buckets (m.hasher ne.key % m.table.length)
        rw [hmodel_of (m.hasher ne.key % m.table.length), if_neg hge_ne_tb,
          if_pos hbne] at hb0
        simpa using hb0
      have huniq2 : ∀ x ∈ bml (bucketAssign m.hasher m.table.length)
            (m.hasher ne.key % m.table.length) (pairsFrom none u)
          ++ (some e.id : Marker) ::
            bml (bucketAssign m.hasher m.table.length) (m.hasher ne.key % m.table.length)
            (pairsFrom (some ne.id) w'),
          markerMatches m.elements ne.key x = true → x = some e.id := by
        intro x hx
        apply model_match_unique hm.ids_nodup hm.keys_nodup hpairne rfl
        rw [hmodel_of (m.hasher ne.key % m.table.length), if_neg hge_ne_tb, if_pos hbne]
        simpa using hx
      obtain ⟨j, hj, hlt2, hval2, _, hset2⟩ := bucket_surgery h1 huniq2 hμ2
      have htgt : succAt m.elements
          ((m.table.getD (m.hasher k % m.table.length) []).getD i none) = some e := by
        rw [hval1]
        exact hsucc_pk
      rw [HashMap.erase_unfold_mid hi htgt hne_succ hj, hval1]
      refine ⟨?_, ?_, ?_, ?_, ?_, ?_⟩
      · refine ⟨?_, ?_, ?_, ?_, ?_, ?_⟩
        · show 0 < (List.set _ _ _).length
          rw [List.length_set, List.length_set]
          exact hL
        · show ((removeAfter m.elements (lastPosFrom none u)).map Entry.key).Nodup
          rw [hremove]
          exact hkeys_new
        · show ((removeAfter m.elements (lastPosFrom none u)).map Entry.id).Nodup
          rw [hremove]
          exact hids_new
        · show ∀ x ∈ removeAfter m.elements (lastPosFrom none u), x.id < m.nextId
          rw [hremove]
          exact fun x hx => hm.ids_lt x (hmem_new x hx)
        · show m.size - 1 = (removeAfter m.elements (lastPosFrom none u)).length
          rw [hremove]
          exact hsize_new
        · intro b
          show List.Perm ((((m.table.set (m.hasher ne.key % m.table.length)
              ((m.table.getD (m.hasher ne.key % m.table.length) []).set j
                (lastPosFrom none u))).set (m.hasher k % m.table.length)
              ((((m.table.set (m.hasher ne.key % m.table.length)
                ((m.table.getD (m.hasher ne.key % m.table.length) []).set j
                  (lastPosFrom none u)))).getD (m.hasher k % m.table.length) []).eraseIdx
                    i))).getD b [])
            (bml (bucketAssign m.hasher (((m.table.set (m.hasher ne.key % m.table.length)
              ((m.table.getD (m.hasher ne.key % m.table.length) []).set j
                (lastPosFrom none u))).set (m.hasher k % m.table.length)
              ((((m.table.set (m.hasher ne.key % m.table.length)
                ((m.table.getD (m.hasher ne.key % m.table.length) []).set j
                  (lastPosFrom none u)))).getD (m.hasher k % m.table.length) []).eraseIdx
                    i))).length) b
              (preds (removeAfter m.elements (lastPosFrom none u))))
          rw [List.length_set, List.length_set, hremove, hnewmodel b]
          by_cases hb : b = m.hasher k % m.table.length
          · subst hb
            rw [list_getD_set_self _ _ (by rw [List.length_set]; exact hbk_lt)]
            rw [list_getD_set_ne _ _ _ (fun hc => htb hc.symm)]
            refine herase1.trans ?_
            rw [if_neg hgne_ne]
            simp
          · rw [list_getD_set_ne _ _ _ hb]
            by_cases hb2 : b = m.hasher ne.key % m.table.length
            · subst hb2
              rw [list_getD_set_self _ _ htb_lt]
              refine (hset2 (lastPosFrom none u)).trans ?_
              rw [if_pos hbne]
              rw [show bml (bucketAssign m.hasher m.table.length)
                    (m.hasher ne.key % m.table.length) (pairsFrom none u)
                  ++ ([lastPosFrom none u]
                  ++ bml (bucketAssign m.hasher m.table.length)
                    (m.hasher ne.key % m.table.length) (pairsFrom (some ne.id) w'))
                = bml (bucketAssign m.hasher m.table.length)
                    (m.hasher ne.key % m.table.length) (pairsFrom none u)
                  ++ lastPosFrom none u ::
                  bml (bucketAssign m.hasher m.table.length)
                    (m.hasher ne.key % m.table.length) (pairsFrom (some ne.id) w')
                from by simp]
              exact List.perm_middle.symm
            · rw [list_getD_set_ne _ _ _ hb2]
              have hb0 := hm.buckets b
              rw [hmodel_of b,
                if_neg (fun hc => hb ((hbke ▸ hc : m.hasher k % m.table.length = b)).symm),
                if_neg (fun hc => hb2
                  ((hbne ▸ hc : m.hasher ne.key % m.table.length = b)).symm)] at hb0
              rw [if_neg (fun hc => hb2
                ((hbne ▸ hc : m.hasher ne.key % m.table.length = b)).symm)]
              simpa using hb0
      · show removeAfter m.elements (lastPosFrom none u)
          = m.elements.filter (fun x => !(decide (x.key = k)))
        rw [hremove, hfilter]
      · rfl
      · rfl
      · show (List.set _ _ _).length = m.table.length
        rw [List.length_set, List.length_set]
      · rfl

/-! ### Clear, index access, copy assignment -/

theorem bml_eq_nil_of_ne {K V : Type} {g : Entry K V → Nat} {b : Nat}
    {ps : List (Marker × Entry K V)} (h : ∀ q ∈ ps, g q.2 ≠ b) :
    bml g b ps = [] := by
  have : ps.filter (fun q => g q.2 == b) = [] := by
    rw [List.filter_eq_nil_iff]
    intro q hq
    simpa using h q hq
  simp [bml, this]

theorem clear_fold_empty {K V : Type} (H : K → Nat) (L : Nat) :
    ∀ (es : List (Entry K V)) (tbl : List (List Marker))
      (_ : ∀ b, b ∉ es.map (fun e => H e.key % L) → tbl.getD b [] = []) (b : Nat),
      (es.foldl (fun t e => t.set (H e.key % L) []) tbl).getD b [] = [] := by
  intro es
  induction es with
  | nil =>
      intro tbl h b
      exact h b (by simp)
  | cons e rest ih =>
      intro tbl h b
      rw [List.foldl_cons]
      apply ih
      intro b' hb'
      by_cases hbe : b' = H e.key % L
      · rw [hbe]
        by_cases hlt : H e.key % L < tbl.length
        · exact list_getD_set_self _ _ hlt
        · apply list_getD_of_length_le
          rw [List.length_set]
          omega
      · rw [list_getD_set_ne _ _ _ hbe]
        apply h
        intro hc
        rcases List.mem_map.mp hc with ⟨x, hx, hxb⟩
        rcases List.mem_cons.mp hx with rfl | hx'
        · exact hbe hxb.symm
        · exact hb' (hxb ▸ List.mem_map_of_mem _ hx')

theorem HashMap.clear_elements (m : HashMap K V) : m.clear.elements = [] := rfl

theorem HashMap.clear_size (m : HashMap K V) : m.clear.size = 0 := rfl

theorem HashMap.clear_hasher (m : HashMap K V) : m.clear.hasher = m.hasher := rfl

theorem foldl_set_length {K V : Type} (H : K → Nat) (L : Nat)
    (es : List (Entry K V)) (tbl : List (List Marker)) :
    (es.foldl (fun t e => t.set (H e.key % L) []) tbl).length = tbl.length := by
  induction es generalizing tbl with
  | nil => rfl
  | cons e rest ih => rw [List.foldl_cons, ih, List.length_set]

theorem HashMap.clear_table_length (m : HashMap K V) :
    m.clear.table.length = m.table.length := by
  show (m.elements.foldl (fun t e => t.set (m.hasher e.key % m.table.length) [])
    m.table).length = m.table.length
  exact foldl_set_length _ _ _ _

theorem HashMap.inv_clear {m : HashMap K V} (hm : m.Inv) : m.clear.Inv := by
  refine ⟨?_, by simp [HashMap.clear_elements], by simp [HashMap.clear_elements],
    ?_, rfl, ?_⟩
  · rw [HashMap.clear_table_length]
    exact hm.len_pos
  · intro e he
    rw [HashMap.clear_elements] at he
    cases he
  · intro b
    have hempty : m.clear.table.getD b [] = [] := by
      show (m.elements.foldl (fun t e => t.set (m.hasher e.key % m.table.length) [])
        m.table).getD b [] = []
      apply clear_fold_empty
      intro b' hb'
      have h0 := hm.buckets b'
      rw [bml_eq_nil_of_ne (fun q hq hc => ?_)] at h0
      · exact h0.eq_nil
      · apply hb'
        rw [← hc]
        exact List.mem_map_of_mem _ (snd_mem_of_mem_preds hq)
    rw [hempty, HashMap.clear_elements]
    exact List.Perm.refl _

theorem HashMap.indexAccess_present {m : HashMap K V} (hm : m.Inv) {k : K}
    {e : Entry K V} (he : e ∈ m.elements) (hk : e.key = k) :
    m.indexAccess k = (m, e.val) := by
  unfold HashMap.indexAccess
  rw [m.findEntry_present hm he hk]

theorem HashMap.insert_absent_elements {m : HashMap K V} (hm : m.Inv) {k : K} {v : V}
    (habs : k ∉ m.elements.map Entry.key) :
    (m.insert (k, v)).elements = ⟨m.nextId, k, v⟩ :: m.elements := by
  rw [HashMap.insert_of_absent (m.findEntry_eq_none hm habs)]
  exact m.insertRaw_elements (k, v)

theorem HashMap.insert_absent_size {m : HashMap K V} (hm : m.Inv) {k : K} {v : V}
    (habs : k ∉ m.elements.map Entry.key) :
    (m.insert (k, v)).size = m.size + 1 := by
  rw [HashMap.insert_of_absent (m.findEntry_eq_none hm habs)]
  exact m.insertRaw_size (k, v)

theorem HashMap.indexAccess_absent {m : HashMap K V} (hm : m.Inv) {k : K}
    (habs : k ∉ m.elements.map Entry.key) :
    (m.indexAccess k).1 = m.insert (k, default) ∧ (m.indexAccess k).2 = (default : V) := by
  unfold HashMap.indexAccess
  rw [m.findEntry_eq_none hm habs]
  refine ⟨rfl, ?_⟩
  show (((m.insert (k, default)).elements.head?).map Entry.val).getD default = default
  rw [HashMap.insert_absent_elements hm habs]
  rfl

theorem HashMap.inv_indexAccess {m : HashMap K V} (hm : m.Inv) (k : K) :
    (m.indexAccess k).1.Inv := by
  unfold HashMap.indexAccess
  rcases h : m.findEntry k with _ | e
  · exact HashMap.inv_insert hm (k, default)
  · exact hm

theorem HashMap.insert_hasher (m : HashMap K V) (p : K × V) :
    (m.insert p).hasher = m.hasher := by
  unfold HashMap.insert
  split
  · rfl
  · exact m.insertRaw_hasher p

theorem fold_insert_inv {acc : HashMap K V} (hacc : acc.Inv)
    (l : List (Entry K V)) :
    (l.foldl (fun acc e => acc.insert (e.key, e.val)) acc).Inv := by
  induction l generalizing acc with
  | nil => exact hacc
  | cons e t ih => exact ih (HashMap.inv_insert hacc (e.key, e.val))

theorem fold_insert_pairs {l : List (Entry K V)} :
    ∀ {acc : HashMap K V} (_ : acc.Inv) (_ : (l.map Entry.key).Nodup)
      (_ : ∀ x ∈ l, x.key ∉ acc.elements.map Entry.key),
      List.Perm ((l.foldl (fun acc e => acc.insert (e.key, e.val)) acc).toPairs)
        (l.map (fun e => (e.key, e.val)) ++ acc.toPairs) := by
  induction l with
  | nil =>
      intro acc _ _ _
      exact List.Perm.refl _
  | cons e t ih =>
      intro acc hacc hnodup habs
      rw [List.foldl_cons]
      have habs0 : e.key ∉ acc.elements.map Entry.key := habs e (List.mem_cons_self _ _)
      have helems : (acc.insert (e.key, e.val)).elements
          = ⟨acc.nextId, e.key, e.val⟩ :: acc.elements :=
        HashMap.insert_absent_elements hacc habs0
      have hnodup' : (e.key :: t.map Entry.key).Nodup := hnodup
      have hstep := ih (HashMap.inv_insert hacc (e.key, e.val))
        ((List.nodup_cons.mp hnodup').2)
        (fun x hx => by
          rw [helems]
          intro hc
          have hc' : x.key ∈ e.key :: acc.elements.map Entry.key := hc
          rcases List.mem_cons.mp hc' with h | h
          · exact (List.nodup_cons.mp hnodup').1
              (h ▸ List.mem_map_of_mem Entry.key hx)
          · exact habs x (List.mem_cons_of_mem _ hx) h)
      refine hstep.trans ?_
      have hpairs : (acc.insert (e.key, e.val)).toPairs
          = (e.key, e.val) :: acc.toPairs := by
        unfold HashMap.toPairs
        rw [helems]
        rfl
      rw [hpairs]
      rw [show ((e :: t).map (fun x => (x.key, x.val)) ++ acc.toPairs)
          = (e.key, e.val) :: (t.map (fun x => (x.key, x.val)) ++ acc.toPairs) from rfl]
      exact List.perm_middle

theorem HashMap.copyAssign_inv_pairs {a b : HashMap K V} (ha : a.Inv) (hb : b.Inv) :
    (b.copyAssign a).Inv ∧
    List.Perm (b.copyAssign a).toPairs a.toPairs ∧
    (b.copyAssign a).size = a.size := by
  have hclear : b.clear.Inv := HashMap.inv_clear hb
  have hinv : (b.copyAssign a).Inv := fold_insert_inv hclear a.elements
  have hpairs : List.Perm (b.copyAssign a).toPairs a.toPairs := by
    have h0 := fold_insert_pairs (l := a.elements) hclear ha.keys_nodup
      (fun x _ => by rw [HashMap.clear_elements]; simp)
    have h1 : b.clear.toPairs = [] := rfl
    rw [h1, List.append_nil] at h0
    exact h0
  refine ⟨hinv, hpairs, ?_⟩
  have h2 : (b.copyAssign a).toPairs.length = a.toPairs.length := hpairs.length_eq
  unfold HashMap.toPairs at h2
  rw [List.length_map, List.length_map] at h2
  rw [hinv.size_eq, h2, ha.size_eq]

theorem fold_insert_hasher (l : List (Entry K V)) (acc : HashMap K V) :
    (l.foldl (fun acc e => acc.insert (e.key, e.val)) acc).hasher = acc.hasher := by
  induction l generalizing acc with
  | nil => rfl
  | cons e t ih => rw [List.foldl_cons, ih, HashMap.insert_hasher]

theorem HashMap.copyAssign_hasher (b a : HashMap K V) :
    (b.copyAssign a).hasher = b.hasher := by
  unfold HashMap.copyAssign
  rw [fold_insert_hasher, HashMap.clear_hasher]

/-! ### Reachability gives the invariant; table growth discipline -/

theorem inv_mkEmpty (h : K → Nat) : (HashMap.mkEmpty h : HashMap K V).Inv := by
  refine ⟨by simp [HashMap.mkEmpty], by simp [HashMap.mkEmpty],
    by simp [HashMap.mkEmpty], ?_, rfl, ?_⟩
  · intro e he
    simp [HashMap.mkEmpty] at he
  · intro b
    show List.Perm (([[]] : List (List Marker)).getD b [])
      (bml (bucketAssign h 1) b (preds ([] : List (Entry K V))))
    rw [show bml (bucketAssign h 1) b (preds ([] : List (Entry K V))) = [] from rfl]
    cases b with
    | zero => exact List.Perm.refl _
    | succ n =>
        rw [list_getD_of_length_le _ (by simp)]

theorem HashMap.inv_erase {m : HashMap K V} (hm : m.Inv) (k : K) : (m.erase k).Inv := by
  by_cases hk : k ∈ m.elements.map Entry.key
  · obtain ⟨e, he, hkey⟩ := List.mem_map.mp hk
    exact (HashMap.erase_present hm he hkey).1
  · rw [HashMap.erase_absent hm hk]
    exact hm

theorem reachable_inv {m : HashMap K V} (h : Reachable m) : m.Inv := by
  induction h with
  | empty h => exact inv_mkEmpty h
  | insert p _ ih => exact HashMap.inv_insert ih p
  | erase k _ ih => exact HashMap.inv_erase ih k
  | index k _ ih => exact HashMap.inv_indexAccess ih k
  | clear _ ih => exact HashMap.inv_clear ih
  | rehash _ ih => exact HashMap.inv_rehash ih
  | assign _ _ iha ihb => exact (HashMap.copyAssign_inv_pairs ihb iha).1

theorem HashMap.insertRaw_table_length (m : HashMap K V) (p : K × V) :
    (m.insertRaw p).table.length
      = if m.table.length < m.size + 1 then 2 * m.table.length
        else m.table.length := by
  simp only [HashMap.insertRaw]
  repeat' split
  all_goals simp_all [HashMap.rehash_table_length, List.length_set]
  all_goals omega

theorem HashMap.insert_table_length (m : HashMap K V) (p : K × V) :
    (m.insert p).table.length
      = if (m.findEntry p.1).isSome then m.table.length
        else if m.table.length < m.size + 1 then 2 * m.table.length
        else m.table.length := by
  unfold HashMap.insert
  split
  · simp_all
  · simp_all [HashMap.insertRaw_table_length]

theorem HashMap.erase_table_length (m : HashMap K V) (k : K) :
    (m.erase k).table.length = m.table.length := by
  simp only [HashMap.erase]
  repeat' split
  all_goals simp [List.length_set]

theorem HashMap.erase_size_le (m : HashMap K V) (k : K) :
    (m.erase k).size ≤ m.size := by
  simp only [HashMap.erase]
  repeat' split
  all_goals simp

theorem HashMap.insert_size (m : HashMap K V) (p : K × V) :
    (m.insert p).size = if (m.findEntry p.1).isSome then m.size else m.size + 1 := by
  unfold HashMap.insert
  split
  · simp_all
  · simp_all [HashMap.insertRaw_size]

theorem p6_insert {m : HashMap K V}
    (h : m.size ≤ m.table.length ∧ ∃ j : Nat, m.table.length = 2 ^ j) (p : K × V) :
    (m.insert p).size ≤ (m.insert p).table.length
      ∧ ∃ j : Nat, (m.insert p).table.length = 2 ^ j := by
  obtain ⟨hle, j, hj⟩ := h
  have hpos : 0 < m.table.length := by rw [hj]; positivity
  rw [HashMap.insert_size, HashMap.insert_table_length]
  by_cases hf : (m.findEntry p.1).isSome
  · simp only [if_pos hf]
    exact ⟨hle, j, hj⟩
  · simp only [if_neg hf]
    by_cases hg : m.table.length < m.size + 1
    · simp only [if_pos hg]
      refine ⟨by omega, j + 1, by rw [hj]; ring⟩
    · simp only [if_neg hg]
      exact ⟨by omega, j, hj⟩

theorem p6_fold (l : List (Entry K V)) :
    ∀ {acc : HashMap K V},
      (acc.size ≤ acc.table.length ∧ ∃ j : Nat, acc.table.length = 2 ^ j) →
      ((l.foldl (fun acc e => acc.insert (e.key, e.val)) acc).size
        ≤ (l.foldl (fun acc e => acc.insert (e.key, e.val)) acc).table.length
      ∧ ∃ j : Nat, (l.foldl (fun acc e => acc.insert (e.key, e.val)) acc).table.length
        = 2 ^ j) := by
  induction l with
  | nil => intro acc h; exact h
  | cons e t ih => intro acc h; exact ih (p6_insert h (e.key, e.val))

theorem p6_reachable {m : HashMap K V} (h : Reachable m) :
    m.size ≤ m.table.length ∧ ∃ j : Nat, m.table.length = 2 ^ j := by
  induction h with
  | empty h => exact ⟨by simp [HashMap.mkEmpty], 0, by simp [HashMap.mkEmpty]⟩
  | insert p _ ih => exact p6_insert ih p
  | erase k _ ih =>
      obtain ⟨hle, j, hj⟩ := ih
      rw [HashMap.erase_table_length]
      exact ⟨le_trans (HashMap.erase_size_le _ k) hle, j, hj⟩
  | @index m' k hr ih =>
      have hminv := reachable_inv hr
      by_cases hmem : k ∈ m'.elements.map Entry.key
      · obtain ⟨e, he, hkey⟩ := List.mem_map.mp hmem
        rw [HashMap.indexAccess_present hminv he hkey]
        exact ih
      · rw [(HashMap.indexAccess_absent hminv hmem).1]
        exact p6_insert ih (k, default)
  | clear _ ih =>
      obtain ⟨hle, j, hj⟩ := ih
      rw [HashMap.clear_table_length, HashMap.clear_size]
      exact ⟨by omega, j, hj⟩
  | rehash _ ih =>
      obtain ⟨hle, j, hj⟩ := ih
      rw [HashMap.rehash_table_length, HashMap.rehash_size]
      exact ⟨by omega, j + 1, by rw [hj]; ring⟩
  | assign _ _ iha ihb =>
      obtain ⟨_, j, hj⟩ := iha
      apply p6_fold
      rw [HashMap.clear_table_length, HashMap.clear_size]
      exact ⟨Nat.zero_le _, j, hj⟩

theorem HashMap.insert_table_length_mono (m : HashMap K V) (p : K × V) :
    m.table.length ≤ (m.insert p).table.length := by
  rw [HashMap.insert_table_length]
  by_cases h1 : (m.findEntry p.1).isSome
  · simp [h1]
  · simp only [if_neg h1]
    by_cases h2 : m.table.length < m.size + 1
    · simp only [if_pos h2]
      omega
    · simp only [if_neg h2]
      exact le_refl _

theorem HashMap.indexAccess_table_length_mono (m : HashMap K V) (k : K) :
    m.table.length ≤ (m.indexAccess k).1.table.length := by
  unfold HashMap.indexAccess
  rcases h : m.findEntry k with _ | e
  · exact HashMap.insert_table_length_mono m (k, default)
  · exact le_refl _

theorem fold_insert_table_length_mono (l : List (Entry K V)) :
    ∀ acc : HashMap K V,
      acc.table.length
        ≤ (l.foldl (fun acc e => acc.insert (e.key, e.val)) acc).table.length := by
  induction l with
  | nil => exact fun acc => le_refl _
  | cons e t ih =>
      intro acc
      rw [List.foldl_cons]
      exact le_trans (HashMap.insert_table_length_mono acc (e.key, e.val))
        (ih (acc.insert (e.key, e.val)))

theorem HashMap.copyAssign_table_length_mono (b a : HashMap K V) :
    b.table.length ≤ (b.copyAssign a).table.length := by
  unfold HashMap.copyAssign
  have h0 := fold_insert_table_length_mono a.elements b.clear
  rwa [HashMap.clear_table_length] at h0

/-! ### Counting markers -/

theorem sum_map_congr {α : Type} {l : List α} {f g : α → Nat}
    (h : ∀ x ∈ l, f x = g x) : (l.map f).sum = (l.map g).sum := by
  induction l with
  | nil => rfl
  | cons x t ih =>
      simp only [List.map_cons, List.sum_cons]
      rw [h x (List.mem_cons_self x t), ih (fun y hy => h y (List.mem_cons_of_mem _ hy))]

theorem sum_map_add {α : Type} (l : List α) (f g : α → Nat) :
    (l.map (fun x => f x + g x)).sum = (l.map f).sum + (l.map g).sum := by
  induction l with
  | nil => rfl
  | cons x t ih =>
      simp only [List.map_cons, List.sum_cons, ih]
      omega

theorem sum_indicator {x L : Nat} (h : x < L) :
    ((List.range L).map (fun b => if x = b then 1 else 0)).sum = 1 := by
  induction L with
  | zero => omega
  | succ n ih =>
      rw [List.range_succ, List.map_append, List.sum_append]
      by_cases hx : x = n
      · subst hx
        have h0 : ((List.range x).map (fun b => if x = b then 1 else 0)).sum = 0 := by
          apply List.sum_eq_zero
          intro y hy
          rcases List.mem_map.mp hy with ⟨b, hb, rfl⟩
          rw [if_neg]
          intro hc
          rw [hc] at hb
          exact absurd (List.mem_range.mp hb) (lt_irrefl _)
        rw [h0]
        simp
      · have hlt : x < n := by omega
        rw [ih hlt]
        simp [hx]

theorem table_sum_map (t : List (List Marker)) (f : List Marker → Nat) :
    (t.map f).sum = ((List.range t.length).map (fun b => f (t.getD b []))).sum := by
  induction t with
  | nil => rfl
  | cons x t' ih =>
      rw [List.map_cons, List.sum_cons, List.length_cons]
      rw [show List.range (t'.length + 1) = 0 :: (List.range t'.length).map (fun b => b + 1)
        from by simpa using List.range_succ_eq_map t'.length]
      rw [List.map_cons, List.sum_cons, List.map_map]
      rw [show ((List.range t'.length).map ((fun b => f ((x :: t').getD b [])) ∘ (fun b => b + 1)))
          = (List.range t'.length).map (fun b => f (t'.getD b [])) from by
        apply List.map_congr_left
        intro b _
        rfl]
      rw [ih]
      rfl

theorem sum_countP_buckets {α : Type} (ps : List α) (g : α → Nat) (L : Nat)
    (h : ∀ x ∈ ps, g x < L) :
    ((List.range L).map (fun b => ps.countP (fun x => g x == b))).sum = ps.length := by
  induction ps with
  | nil =>
      simp
  | cons x t ih =>
      have hrw : ∀ b : Nat, (x :: t).countP (fun y => g y == b)
          = t.countP (fun y => g y == b) + (if g x = b then 1 else 0) := by
        intro b
        rw [List.countP_cons]
        by_cases hb : g x = b
        · simp [hb]
        · simp [hb]
      rw [sum_map_congr (fun b _ => hrw b), sum_map_add]
      rw [ih (fun y hy => h y (List.mem_cons_of_mem _ hy))]
      rw [sum_indicator (h x (List.mem_cons_self x t))]
      simp

theorem countP_bml_entry {m : HashMap K V} (hm : m.Inv) {e : Entry K V}
    (he : e ∈ m.elements) (b : Nat) :
    (bml (bucketAssign m.hasher m.table.length) b (preds m.elements)).countP
        (fun mk => succAt m.elements mk == some e)
      = if bucketAssign m.hasher m.table.length e = b then 1 else 0 := by
  unfold bml
  rw [List.countP_map, List.countP_filter]
  rw [List.countP_congr (q := fun q => (q.2 == e)
      && (bucketAssign m.hasher m.table.length e == b)) ?_]
  · by_cases hb : bucketAssign m.hasher m.table.length e = b
    · rw [if_pos hb]
      have hb' : (bucketAssign m.hasher m.table.length e == b) = true := by
        simpa using hb
      rw [List.countP_congr (q := fun q => q.2 == e) (by
        intro q _
        rw [hb']
        simp)]
      have h1 : (preds m.elements).countP (fun q => q.2 == e)
          = ((preds m.elements).map Prod.snd).countP (fun x => x == e) := by
        rw [List.countP_map]
        rfl
      rw [h1, preds, pairsFrom_snd]
      have hnodup : m.elements.Nodup := List.Nodup.of_map Entry.id hm.ids_nodup
      exact List.count_eq_one_of_mem hnodup he
    · rw [if_neg hb]
      have hb' : (bucketAssign m.hasher m.table.length e == b) = false := by
        simpa using hb
      rw [List.countP_congr (q := fun _ => false) (by
        intro q _
        rw [hb']
        simp)]
      simp
  · intro q hq
    have hsucc : succAt m.elements q.1 = some q.2 :=
      succAt_of_mem_preds hm.ids_nodup hq
    simp only [Function.comp_apply, hsucc]
    by_cases hqe : q.2 = e
    · rw [hqe]
      simp
    · simp [hqe]

theorem marker_count_entry {m : HashMap K V} (hm : m.Inv) {e : Entry K V}
    (he : e ∈ m.elements) :
    (m.table.map (fun bkt =>
        bkt.countP (fun mk => succAt m.elements mk == some e))).sum = 1
    ∧ (m.table.getD (m.hasher e.key % m.table.length) []).countP
        (fun mk => succAt m.elements mk == some e) = 1 := by
  have hL := hm.len_pos
  have hblt : bucketAssign m.hasher m.table.length e < m.table.length :=
    Nat.mod_lt _ hL
  constructor
  · rw [table_sum_map]
    rw [sum_map_congr (g := fun b =>
        if bucketAssign m.hasher m.table.length e = b then 1 else 0)
      (fun b _ => ((hm.buckets b).countP_eq _).trans (countP_bml_entry hm he b))]
    exact sum_indicator hblt
  · have h0 := ((hm.buckets
      (m.hasher e.key % m.table.length)).countP_eq
        (fun mk => succAt m.elements mk == some e)).trans
      (countP_bml_entry hm he (m.hasher e.key % m.table.length))
    rw [if_pos (show bucketAssign m.hasher m.table.length e
      = m.hasher e.key % m.table.length from rfl)] at h0
    exact h0

theorem bml_length {K V : Type} (g : Entry K V → Nat) (b : Nat)
    (ps : List (Marker × Entry K V)) :
    (bml g b ps).length = ps.countP (fun q => g q.2 == b) := by
  unfold bml
  rw [List.length_map]
  exact (List.countP_eq_length_filter _ _).symm

theorem marker_total {m : HashMap K V} (hm : m.Inv) :
    (m.table.map List.length).sum = m.size := by
  have hL := hm.len_pos
  rw [table_sum_map]
  rw [sum_map_congr (g := fun b => (preds m.elements).countP
      (fun q => bucketAssign m.hasher m.table.length q.2 == b))
    (fun b _ => ((hm.buckets b).length_eq).trans (bml_length _ b _))]
  rw [sum_countP_buckets (preds m.elements)
    (fun q => bucketAssign m.hasher m.table.length q.2) m.table.length
    (fun q _ => Nat.mod_lt _ hL)]
  have hlen : (preds m.elements).length = m.elements.length := by
    have := congrArg List.length (pairsFrom_snd (none : Marker) m.elements)
    rwa [List.length_map] at this
  rw [hlen, hm.size_eq]

/-! ### The claims -/

/-- C1: in every map state reachable by the public operations from an empty
map, every live entry with key `K` has exactly one predecessor marker in the
whole table, that marker sits in bucket `hash(K) mod bucket_count` and its
successor is the entry itself, and the stored size equals both the number of
entries in the sequence and the total number of markers across all buckets. -/
theorem c1_marker_size_invariant (m : HashMap K V) (hr : Reachable m) :
    (∀ e ∈ m.elements,
      (m.table.map (fun bkt =>
        bkt.countP (fun mk => succAt m.elements mk == some e))).sum = 1
      ∧ (m.table.getD (m.hasher e.key % m.table.length) []).countP
          (fun mk => succAt m.elements mk == some e) = 1)
    ∧ m.size = m.elements.length
    ∧ m.size = (m.table.map List.length).sum := by
  have hm := reachable_inv hr
  exact ⟨fun e he => marker_count_entry hm he, hm.size_eq, (marker_total hm).symm⟩

/-- C2: inserting a key that is not present and then calling `at` on it
returns exactly the inserted value. -/
theorem c2_insert_at_round_trip (m : HashMap K V) (k : K) (v : V)
    (hr : Reachable m) (habs : k ∉ m.elements.map Entry.key) :
    (m.insert (k, v)).atKey k = some v := by
  have hm := reachable_inv hr
  have hm' := HashMap.inv_insert hm (k, v)
  unfold HashMap.atKey
  rw [(m.insert (k, v)).findEntry_present hm'
    (e := ⟨m.nextId, k, v⟩) ?_ rfl]
  · rfl
  · rw [HashMap.insert_absent_elements hm habs]
    exact List.mem_cons_self _ _

/-- C3: inserting a key that is already present (with value `v`) is a no-op
for any new value: the map is unchanged, `find`/`at` still yield `v`, size is
unchanged, and the key is counted exactly once. -/
theorem c3_first_writer_wins (m : HashMap K V) (k : K) (v : V) (v2 : V)
    (hr : Reachable m) (hv : m.atKey k = some v) :
    m.insert (k, v2) = m
    ∧ ((m.insert (k, v2)).findEntry k).map Entry.val = some v
    ∧ (m.insert (k, v2)).atKey k = some v
    ∧ (m.insert (k, v2)).size = m.size
    ∧ (m.elements.map Entry.key).count k = 1 := by
  have hm := reachable_inv hr
  have hsome : (m.findEntry k).isSome := by
    unfold HashMap.atKey at hv
    rcases h : m.findEntry k with _ | e
    · rw [h] at hv
      cases hv
    · rfl
  have hnoop : m.insert (k, v2) = m := HashMap.insert_of_present hsome
  obtain ⟨e, he⟩ := Option.isSome_iff_exists.mp hsome
  obtain ⟨hmem, hkey⟩ := m.findEntry_some hm he
  refine ⟨hnoop, by rw [hnoop]; exact hv, by rw [hnoop]; exact hv, by rw [hnoop], ?_⟩
  exact List.count_eq_one_of_mem hm.keys_nodup (hkey ▸ List.mem_map_of_mem Entry.key hmem)

/-- C4: `rehash` moves only bucket markers: the entry sequence (hence the set
of pairs under iteration) is untouched, and every lookup yields the same
result before and after. -/
theorem c4_rehash_preserves (m : HashMap K V) (hr : Reachable m) :
    m.rehash.elements = m.elements
    ∧ m.rehash.toPairs = m.toPairs
    ∧ (∀ k, m.rehash.findEntry k = m.findEntry k)
    ∧ (∀ k, m.rehash.atKey k = m.atKey k)
    ∧ m.rehash.size = m.size := by
  have hm := reachable_inv hr
  have hm' := HashMap.inv_rehash hm
  have hfind : ∀ k, m.rehash.findEntry k = m.findEntry k := by
    intro k
    rw [m.rehash.findEntry_eq hm' k, m.findEntry_eq hm k, HashMap.rehash_elements]
  refine ⟨rfl, rfl, hfind, ?_, rfl⟩
  intro k
  unfold HashMap.atKey
  rw [hfind k]

/-- C5: erasing a present key makes `find` report absent, decreases size by
exactly one and leaves all other entries unchanged in order; erasing an
absent key leaves the map exactly as it was. -/
theorem c5_erase_correct (m : HashMap K V) (k : K) (hr : Reachable m) :
    (k ∈ m.elements.map Entry.key →
      (m.erase k).findEntry k = none
      ∧ (m.erase k).size + 1 = m.size
      ∧ (m.erase k).elements = m.elements.filter (fun x => !(decide (x.key = k))))
    ∧ (k ∉ m.elements.map Entry.key → m.erase k = m) := by
  have hm := reachable_inv hr
  constructor
  · intro hk
    obtain ⟨e, he, hkey⟩ := List.mem_map.mp hk
    obtain ⟨hinv', hfil, hsz, _, _, _⟩ := HashMap.erase_present hm he hkey
    refine ⟨?_, ?_, hfil⟩
    · apply (m.erase k).findEntry_eq_none hinv'
      rw [hfil]
      intro hc
      obtain ⟨x, hx, hxk⟩ := List.mem_map.mp hc
      have hxf := (List.mem_filter.mp hx).2
      simp [hxk] at hxf
    · have hpos : 0 < m.size := by
        rw [hm.size_eq]
        exact List.length_pos.mpr (List.ne_nil_of_mem he)
      omega
  · intro hk
    exact HashMap.erase_absent hm hk

/-- C6: after every public operation the load factor is at most one
(`size ≤ bucket_count`), the bucket count is a power of two (the doubling
sequence started at 1), and no operation ever shrinks the table. -/
theorem c6_load_factor_growth (m : HashMap K V) (hr : Reachable m) :
    m.size ≤ m.table.length
    ∧ (∃ j : Nat, m.table.length = 2 ^ j)
    ∧ (∀ p : K × V, m.table.length ≤ (m.insert p).table.length)
    ∧ (∀ k : K, (m.erase k).table.length = m.table.length)
    ∧ (∀ k : K, m.table.length ≤ (m.indexAccess k).1.table.length)
    ∧ m.clear.table.length = m.table.length
    ∧ m.table.length ≤ m.rehash.table.length
    ∧ (∀ a : HashMap K V, m.table.length ≤ (m.copyAssign a).table.length) := by
  obtain ⟨h1, h2⟩ := p6_reachable hr
  refine ⟨h1, h2, fun p => HashMap.insert_table_length_mono m p,
    fun k => HashMap.erase_table_length m k,
    fun k => HashMap.indexAccess_table_length_mono m k,
    HashMap.clear_table_length m, ?_, fun a => HashMap.copyAssign_table_length_mono m a⟩
  rw [HashMap.rehash_table_length]
  omega

/-- C7: `at` fails exactly when the key is absent and returns the stored
value otherwise; being a pure observer in this model, it cannot modify the
container. -/
theorem c7_at_error_iff_absent (m : HashMap K V) (k : K) (hr : Reachable m) :
    (m.atKey k = none ↔ k ∉ m.elements.map Entry.key)
    ∧ (∀ e ∈ m.elements, e.key = k → m.atKey k = some e.val) := by
  have hm := reachable_inv hr
  have hval : ∀ e ∈ m.elements, e.key = k → m.atKey k = some e.val := by
    intro e he hkey
    unfold HashMap.atKey
    rw [m.findEntry_present hm he hkey]
    rfl
  refine ⟨⟨?_, ?_⟩, hval⟩
  · intro h hc
    obtain ⟨e, he, hkey⟩ := List.mem_map.mp hc
    rw [hval e he hkey] at h
    cases h
  · intro habs
    unfold HashMap.atKey
    rw [m.findEntry_eq_none hm habs]
    rfl

/-- C8: `operator[]` on a present key returns the stored value without any
mutation; on an absent key it runs the insert algorithm with a
default-constructed value, returns that default, and grows the size by one. -/
theorem c8_index_access (m : HashMap K V) (k : K) (hr : Reachable m) :
    (∀ e ∈ m.elements, e.key = k → m.indexAccess k = (m, e.val))
    ∧ (k ∉ m.elements.map Entry.key →
        (m.indexAccess k).1 = m.insert (k, default)
        ∧ (m.indexAccess k).2 = (default : V)
        ∧ (m.indexAccess k).1.size = m.size + 1) := by
  have hm := reachable_inv hr
  constructor
  · intro e he hkey
    exact HashMap.indexAccess_present hm he hkey
  · intro habs
    obtain ⟨h1, h2⟩ := HashMap.indexAccess_absent hm habs
    refine ⟨h1, h2, ?_⟩
    rw [h1]
    exact HashMap.insert_absent_size hm habs

/-- C9: copy-assignment gives the target exactly the source's pairs (same
size), the copy is itself a well-formed independent map state (the embedding
shares no storage between the two values), and guarded self-assignment
leaves the map untouched. -/
theorem c9_copy_assignment (a b : HashMap K V) (hra : Reachable a)
    (hrb : Reachable b) :
    List.Perm (b.copyAssign a).toPairs a.toPairs
    ∧ (b.copyAssign a).size = a.size
    ∧ (b.copyAssign a).Inv
    ∧ HashMap.assignOp true a a = a := by
  have hma := reachable_inv hra
  have hmb := reachable_inv hrb
  obtain ⟨hi, hp, hs⟩ := HashMap.copyAssign_inv_pairs hma hmb
  exact ⟨hp, hs, hi, rfl⟩

/-- C10: `operator=` never copies the hash function: with or without the
self-assignment guard, the target keeps its own hasher (only entries are
transferred). -/
theorem c10_assign_keeps_hasher (a b : HashMap K V) :
    (HashMap.assignOp false b a).hash_function = b.hash_function
    ∧ (HashMap.assignOp true b a).hash_function = b.hash_function := by
  constructor
  · show (b.copyAssign a).hash_function = b.hash_function
    unfold HashMap.hash_function
    exact HashMap.copyAssign_hasher b a
  · rfl

/-! ### Concrete witnesses -/

def hasherW : Nat → Nat := fun n => n

def hasherW2 : Nat → Nat := fun n => n + 1

def mapW : HashMap Nat Nat := ((HashMap.mkEmpty hasherW).insert (1, 10)).insert (2, 20)

def mapW2 : HashMap Nat Nat := HashMap.mkEmpty hasherW2

theorem mapW_reachable : Reachable mapW :=
  Reachable.insert _ (Reachable.insert _ (Reachable.empty hasherW))

theorem mapW2_reachable : Reachable mapW2 := Reachable.empty hasherW2

theorem c1_witness :
    Reachable mapW ∧
    ((∀ e ∈ mapW.elements,
      (mapW.table.map (fun bkt =>
        bkt.countP (fun mk => succAt mapW.elements mk == some e))).sum = 1
      ∧ (mapW.table.getD (mapW.hasher e.key % mapW.table.length) []).countP
          (fun mk => succAt mapW.elements mk == some e) = 1)
    ∧ mapW.size = mapW.elements.length
    ∧ mapW.size = (mapW.table.map List.length).sum) :=
  ⟨mapW_reachable, c1_marker_size_invariant mapW mapW_reachable⟩

theorem c2_witness :
    (5 ∉ (HashMap.mkEmpty hasherW : HashMap Nat Nat).elements.map Entry.key)
    ∧ ((HashMap.mkEmpty hasherW : HashMap Nat Nat).insert (5, 7)).atKey 5 = some 7 :=
  ⟨by decide, c2_insert_at_round_trip _ 5 7 (Reachable.empty hasherW) (by decide)⟩

theorem c3_witness :
    mapW.atKey 1 = some 10 ∧
    (mapW.insert (1, 99) = mapW
    ∧ ((mapW.insert (1, 99)).findEntry 1).map Entry.val = some 10
    ∧ (mapW.insert (1, 99)).atKey 1 = some 10
    ∧ (mapW.insert (1, 99)).size = mapW.size
    ∧ (mapW.elements.map Entry.key).count 1 = 1) :=
  ⟨by decide, c3_first_writer_wins mapW 1 10 99 mapW_reachable (by decide)⟩

theorem c4_witness :
    Reachable mapW ∧
    (mapW.rehash.elements = mapW.elements
    ∧ mapW.rehash.toPairs = mapW.toPairs
    ∧ (∀ k, mapW.rehash.findEntry k = mapW.findEntry k)
    ∧ (∀ k, mapW.rehash.atKey k = mapW.atKey k)
    ∧ mapW.rehash.size = mapW.size) :=
  ⟨mapW_reachable, c4_rehash_preserves mapW mapW_reachable⟩

theorem c5_witness :
    Reachable mapW ∧
    ((1 ∈ mapW.elements.map Entry.key →
      (mapW.erase 1).findEntry 1 = none
      ∧ (mapW.erase 1).size + 1 = mapW.size
      ∧ (mapW.erase 1).elements
          = mapW.elements.filter (fun x => !(decide (x.key = 1))))
    ∧ (1 ∉ mapW.elements.map Entry.key → mapW.erase 1 = mapW)) :=
  ⟨mapW_reachable, c5_erase_correct mapW 1 mapW_reachable⟩

theorem c6_witness :
    Reachable mapW ∧
    (mapW.size ≤ mapW.table.length
    ∧ (∃ j : Nat, mapW.table.length = 2 ^ j)
    ∧ (∀ p : Nat × Nat, mapW.table.length ≤ (mapW.insert p).table.length)
    ∧ (∀ k : Nat, (mapW.erase k).table.length = mapW.table.length)
    ∧ (∀ k : Nat, mapW.table.length ≤ (mapW.indexAccess k).1.table.length)
    ∧ mapW.clear.table.length = mapW.table.length
    ∧ mapW.table.length ≤ mapW.rehash.table.length
    ∧ (∀ a : HashMap Nat Nat, mapW.table.length ≤ (mapW.copyAssign a).table.length)) :=
  ⟨mapW_reachable, c6_load_factor_growth mapW mapW_reachable⟩

theorem c7_witness :
    Reachable mapW ∧
    ((mapW.atKey 2 = none ↔ 2 ∉ mapW.elements.map Entry.key)
    ∧ (∀ e ∈ mapW.elements, e.key = 2 → mapW.atKey 2 = some e.val)) :=
  ⟨mapW_reachable, c7_at_error_iff_absent mapW 2 mapW_reachable⟩

theorem c8_witness :
    Reachable mapW ∧
    ((∀ e ∈ mapW.elements, e.key = 7 → mapW.indexAccess 7 = (mapW, e.val))
    ∧ (7 ∉ mapW.elements.map Entry.key →
        (mapW.indexAccess 7).1 = mapW.insert (7, default)
        ∧ (mapW.indexAccess 7).2 = (default : Nat)
        ∧ (mapW.indexAccess 7).1.size = mapW.size + 1)) :=
  ⟨mapW_reachable, c8_index_access mapW 7 mapW_reachable⟩

theorem c9_witness :
    Reachable mapW ∧ Reachable mapW2 ∧
    (List.Perm (mapW2.copyAssign mapW).toPairs mapW.toPairs
    ∧ (mapW2.copyAssign mapW).size = mapW.size
    ∧ (mapW2.copyAssign mapW).Inv
    ∧ HashMap.assignOp true mapW mapW = mapW) :=
  ⟨mapW_reachable, mapW2_reachable,
    c9_copy_assignment mapW mapW2 mapW_reachable mapW2_reachable⟩
